import Mathlib

/-!
Verification development for the cspec test framework runtime (cspec.c).

The development shallowly embeds the two core subsystems of the runtime:

* the sandboxed allocator with fenced memory records
  (`cspec_malloc` / `cspec_free` / `cspec_realloc` / `memory_final_checks`
  together with the surrounding test bookkeeping `_cspec_end`,
  `_cspec_expect_to_fail`, `memory_test_reset`), and

* the re-entrant context/test execution engine
  (`_cspec_context_begin` / `_cspec_context_end` / `_cspec_begin` /
  `process_function`).

Machine bytes are modelled as `Nat` values, the byte array `_memory` as a
total function `Nat → Nat` over absolute offsets into `_memory`
(so the usable arena `memory` starts at offset 16), and the record table as
a `List`.  Fallible allocation returns an explicit result value.  C `int`
fields that can go negative in the code (the context stack cursors and line
numbers) are modelled as `Int`.
-/

set_option autoImplicit false

namespace Cspec

/-! ### Constants of the memory sandbox (cspec.c / cspec.h) -/

/-- memory_size_fence -/
def fenceSize : Nat := 7

/-- memory_size_barrier -/
def barrierSize : Nat := 16

/-- memory_size_max (default configuration from cspec.h) -/
def memMax : Nat := 4096

/-- memory_size_full = memory_size_max + memory_size_barrier * 2 -/
def memFull : Nat := memMax + barrierSize * 2

/-- byte value of the leading fence pattern, the character b -/
def byteB : Nat := 98

/-- byte value of the trailing fence pattern, the character e -/
def byteE : Nat := 101

/-- byte value of the dirty (freshly allocated) pattern, the character N -/
def byteN : Nat := 78

/-- byte value of the freed-poison pattern, the character F -/
def byteF : Nat := 70

/-- byte value of the arena reset pattern, the character X -/
def byteX : Nat := 88

/-- byte value 0xFF used for the two outer barriers -/
def byteBar : Nat := 255

/-! ### Memory sandbox data model -/

/-- MallocFailLevel from cspec.c. -/
inductive MFail where
  | normal
  | wasExpected
  | failOnce
  | failAlways
deriving DecidableEq, Repr

/-- Numeric value of the C enum (M_NORMAL = 0, M_WAS_EXPECTED = 1,
M_FAIL_ONCE = 2, M_FAIL_ALWAYS = 3); the code compares with `>=`. -/
def MFail.ord : MFail → Nat
  | .normal => 0
  | .wasExpected => 1
  | .failOnce => 2
  | .failAlways => 3

/-- MemoryRecord from cspec.c.  `block` is the absolute offset of the start
of the leading fence inside `_memory`. -/
structure MRec where
  size : Nat
  block : Nat
  isFree : Bool
deriving DecidableEq, Repr

/-- Result of an allocation entry point: delegated to the real allocator
(outside a test / sandbox off), NULL, or a payload offset into `_memory`. -/
inductive PtrRes where
  | real
  | null
  | addr (p : Nat)
deriving DecidableEq, Repr

/-- The process-wide test/memory state of cspec.c that the sandbox and the
test begin/end bookkeeping read and write.  Output formatting is not
modelled; `log` records each error-reporting call
(`_cspec_error_mem` / `_cspec_error_fn`) that happens while a test is in
progress (the code suppresses only the printing, not the recording, under
an expected-error directive). -/
structure TS where
  /-- test_in_function -/
  inFunction : Bool
  /-- test_in_progress -/
  inProgress : Bool
  /-- test_failed -/
  failed : Bool
  /-- test_expect_fail -/
  expectFail : Bool
  /-- param_no_expect_fail (-f) -/
  noExpectFail : Bool
  /-- param_memory_test (-m clears it) -/
  memoryTest : Bool
  /-- test_count -/
  tcount : Nat
  /-- test_passed_count -/
  passed : Nat
  /-- memory_records != NULL -/
  tableOn : Bool
  /-- the byte array _memory, as a total function on absolute offsets -/
  mem : Nat → Nat
  /-- memory_ptr (bump offset into the usable region) -/
  ptr : Nat
  /-- memory_records[0 .. memory_records_size) -/
  records : List MRec
  /-- memory_count_mallocs -/
  mallocs : Nat
  /-- memory_count_frees -/
  frees : Nat
  /-- memory_expect_error -/
  expectErr : Bool
  /-- memory_error -/
  errored : Bool
  /-- memory_malloc_fail -/
  mfail : MFail
  /-- memory_malloc_forced_failures -/
  forced : Nat
  /-- record of error reports raised during the test -/
  log : List String

/-- cspec_memset on the modelled byte array: memset(m + start, c, n). -/
def memSet (m : Nat → Nat) (start c n : Nat) : Nat → Nat :=
  fun a => if start ≤ a ∧ a < start + n then c else m a

/-- _cspec_error_mem: while a test is in progress, set memory_error and
record the report. -/
def errMem (msg : String) (s : TS) : TS :=
  if s.inProgress then { s with errored := true, log := s.log ++ [msg] } else s

/-- _cspec_error_fn: while a test is in progress, set test_failed and
record the report. -/
def errFn (msg : String) (s : TS) : TS :=
  if s.inProgress then { s with failed := true, log := s.log ++ [msg] } else s

def msgOutOfMemory : String := "malloc: ran out of test memory space"
def msgPrevFence : String := "malloc: preceeding fence broken"
def msgFreeOob : String := "free: invalid pointer, out of bounds"
def msgFreeNotMalloc : String := "free: invalid pointer, not malloc result"
def msgDoubleFree : String := "free: pointer already freed"
def msgFreeFence : String := "free: broken fence"
def msgReallocFence : String := "realloc: broken fence"
def msgReallocMallocFailed : String := "realloc: malloc failed in realloc"
def msgReallocNothing : String := "realloc: nothing previously allocated"
def msgAfterOverrun : String := "after: detected buffer over/underrun"
def msgUseAfterFree : String := "after: memory modified after free"
def msgLeak : String := "after: allocated memory not freed"
def msgBarrier : String := "after: primary fence broken (large overrun)"
def msgMismatch : String := "after: mismatched malloc/free calls"
def msgFailNeverCalled : String :=
  "memory error: after: malloc fail requested, but never called"
def msgExpectedFail : String := "expected to fail, but succeeded instead"
def msgExpectedMem : String := "expected memory errors, but none were found"

/-- memory_test_reset from cspec.c.  With memory testing enabled it clears
all counters and flags, truncates the record table and repaints the two
barriers (0xFF) and the usable region (the X pattern). -/
def memoryTestReset (enable : Bool) (s : TS) : TS :=
  if ¬ enable then { s with tableOn := false }
  else
    let m1 := memSet s.mem 0 byteBar barrierSize
    let m2 := memSet m1 barrierSize byteX memMax
    let m3 := memSet m2 (barrierSize + memMax) byteBar barrierSize
    { s with expectErr := false, forced := 0, mfail := .normal, errored := false,
             mallocs := 0, frees := 0, records := [], ptr := 0, tableOn := true,
             mem := m3 }

/-- memory_check_fence from cspec.c: all 7 leading bytes hold b and all 7
trailing bytes hold e. -/
def checkFence (m : Nat → Nat) (r : MRec) : Bool :=
  (List.range fenceSize).all
    (fun i => m (r.block + i) == byteB && m (r.block + i + fenceSize + r.size) == byteE)

/-- the fence-intactness check cspec_malloc performs on the block preceding
a new allocation (memory[memory_ptr - fence .. memory_ptr) must hold e). -/
def prevFenceOk (s : TS) : Bool :=
  (List.range fenceSize).all
    (fun i => s.mem (barrierSize + s.ptr - fenceSize + i) == byteE)

/-- cspec_malloc from cspec.c.  The geometric growth of the record table is
served by the real (host) allocator and its failure branch is not modelled;
the table itself is a `List`. -/
def cspecMalloc (s : TS) (size : Nat) : PtrRes × TS :=
  if ¬ s.tableOn ∨ ¬ s.inFunction then (.real, s)
  else if size = 0 then (.null, s)
  else if s.mfail.ord ≥ MFail.failOnce.ord then
    let s := if s.mfail = .failOnce then { s with mfail := .wasExpected } else s
    (.null, { s with forced := s.forced + 1 })
  else
    let next := s.ptr + fenceSize * 2 + size
    if next ≥ memMax - fenceSize * 2 then
      (.null, errMem msgOutOfMemory { s with expectErr := false })
    else
      let s := { s with mallocs := s.mallocs + 1 }
      if s.ptr ≠ 0 ∧ ¬ prevFenceOk s then (.null, errMem msgPrevFence s)
      else
        let block := barrierSize + s.ptr
        let m1 := memSet s.mem block byteB fenceSize
        let m2 := memSet m1 (block + fenceSize) byteN size
        let m3 := memSet m2 (block + fenceSize + size) byteE fenceSize
        (.addr (block + fenceSize),
          { s with records := s.records ++ [⟨size, block, false⟩],
                   mem := m3, ptr := next })

/-- cspec_free from cspec.c.  `none` models a NULL argument.  The binary
search over the address-sorted record table is modelled by `List.find?`
(the table is kept in strictly ascending block order, so the match is
unique), and the in-place mutation of the found record by a keyed map. -/
def cspecFree (s : TS) (p : Option Nat) : TS :=
  if ¬ s.tableOn ∨ ¬ s.inFunction then s
  else
    match p with
    | none => s
    | some a =>
      if a < barrierSize ∨ a ≥ barrierSize + memMax then errMem msgFreeOob s
      else
        match s.records.find? (fun r => r.block + fenceSize == a) with
        | none => errMem msgFreeNotMalloc s
        | some r =>
          let s := if r.isFree then errMem msgDoubleFree s else s
          let s := if ¬ checkFence s.mem r then errMem msgFreeFence s else s
          let m := memSet s.mem (r.block + fenceSize) byteF r.size
          let recs := s.records.map
            (fun q => if q.block + fenceSize == a then { q with isFree := true } else q)
          { s with mem := m, records := recs, frees := s.frees + 1 }

/-- cspec_realloc from cspec.c.  Only the most recently allocated record is
compared against the argument; on a mismatch the code allocates, copies
`size + 2 * fence` bytes starting at the block start (the fences included)
of the LAST record, and frees the LAST record. -/
def cspecRealloc (s : TS) (p : Option Nat) (nsize : Nat) : PtrRes × TS :=
  if ¬ s.tableOn ∨ ¬ s.inFunction then (.real, s)
  else
    match p with
    | none => cspecMalloc s nsize
    | some a =>
      match s.records.getLast? with
      | some r =>
        if s.mfail.ord ≥ MFail.failOnce.ord then
          let s := if s.mfail = .failOnce then { s with mfail := .wasExpected } else s
          (.null, { s with forced := s.forced + 1 })
        else if r.block + fenceSize = a then
          if ¬ checkFence s.mem r then (.null, errMem msgReallocFence s)
          else if nsize = r.size then (.addr a, s)
          else
            let bs := r.block + fenceSize
            let m :=
              if nsize > r.size then
                memSet (memSet s.mem (bs + nsize) byteE fenceSize)
                  (bs + r.size) byteN (nsize - r.size)
              else
                memSet (memSet s.mem (bs + nsize) byteE fenceSize)
                  (bs + nsize + fenceSize) byteX (r.size - nsize)
            let recs := s.records.dropLast ++ [{ r with size := nsize }]
            (.addr a, { s with mem := m, records := recs,
                               ptr := bs + nsize + fenceSize - barrierSize })
        else
          match cspecMalloc s nsize with
          | (.addr q, s1) =>
            let m := fun x =>
              if q ≤ x ∧ x < q + (r.size + fenceSize * 2) then
                s1.mem (r.block + (x - q))
              else s1.mem x
            (.addr q, cspecFree { s1 with mem := m } (some (r.block + fenceSize)))
          | (res, s1) => (res, errMem msgReallocMallocFailed s1)
      | none =>
        cspecMalloc (errMem msgReallocNothing s) nsize

/-- one step of the freed-payload scan of memory_final_checks: the code
reports one use-after-free error per byte that no longer holds the poison
pattern. -/
def poisonCheck (r : MRec) (a : TS) (j : Nat) : TS :=
  if a.mem (r.block + fenceSize + j) ≠ byteF then errMem msgUseAfterFree a else a

/-- the per-record step of memory_final_checks: fence check, then either
the freed-payload poison scan or the leak report. -/
def recCheck (acc : TS) (r : MRec) : TS :=
  let acc := if ¬ checkFence acc.mem r then errMem msgAfterOverrun acc else acc
  if r.isFree then (List.range r.size).foldl (poisonCheck r) acc
  else errMem msgLeak acc

/-- the per-index step of the outer-barrier scan of memory_final_checks. -/
def barCheck (a : TS) (i : Nat) : TS :=
  if a.mem i ≠ byteBar ∨ a.mem (i + barrierSize + memMax) ≠ byteBar then
    errMem msgBarrier a
  else a

/-- memory_final_checks from cspec.c: per-record fence, use-after-free and
leak checks (one report per offending byte, as in the code), the two outer
barrier scans (one report per offending index), malloc/free parity, and the
forced-failure-never-triggered design error. -/
def memoryFinalChecks (s : TS) : TS :=
  let s1 := s.records.foldl recCheck s
  let s2 := (List.range barrierSize).foldl barCheck s1
  let s3 := if s2.mallocs ≠ s2.frees then errMem msgMismatch s2 else s2
  if s3.mfail.ord ≥ MFail.wasExpected.ord ∧ s3.forced = 0 then
    errFn msgFailNeverCalled s3
  else s3

/-- the state at which _cspec_end takes its pass/fail decision: the final
memory checks have run when the test has not failed and memory testing is
on. -/
def endState (s : TS) : TS :=
  if ¬ s.failed ∧ s.memoryTest then memoryFinalChecks s else s

/-- _cspec_end from cspec.c: runs the final memory checks when the test has
not failed (and memory testing is on), bumps the run counter, and counts
the test as passed exactly when
(!test_failed ^ test_expect_fail) && (!memory_error ^ memory_expect_error)
holds on the post-check flags; otherwise raises the explicit
expected-to-fail / expected-memory-errors errors. -/
def cspecEnd (s : TS) : Bool × TS :=
  if ¬ s.inProgress then (false, s)
  else
    let s := endState s
    let s := { s with tcount := s.tcount + 1 }
    if ((!s.failed).xor s.expectFail && (!s.errored).xor s.expectErr) = true then
      (true, { s with passed := s.passed + 1, inProgress := false })
    else
      let s :=
        if s.expectFail then errFn msgExpectedFail { s with expectFail := false } else s
      let s := if s.expectErr then errFn msgExpectedMem s else s
      (true, { s with inProgress := false })

/-- _cspec_expect_to_fail from cspec.c (the expect(to_fail) directive). -/
def expectToFail (s : TS) : Bool × TS :=
  (true, if ¬ s.noExpectFail then { s with expectFail := true } else s)

/-! ### Context stack and test execution engine

The engine state below collects the process-wide fields that the context
stack, `_cspec_begin` and the `process_function` loop read and write.  The
context descriptions are string literals compared by pointer in the code;
each context block has its own literal (it embeds the source line), so
under well-formedness descriptions are in bijection with block lines and
the model uses the line as the description identity.  The C `int` cursors
are modelled as `Int` (the stack top can go negative if the root is
popped).  The two capacity warnings `_cspec_context_begin` emits are
modelled by the counter `capWarns`. -/

/-- one entry of ctx_stack; `desc = none` models the root description
pointer (and the NULL pointers of never-written entries), which never
compares equal to a user description. -/
structure CtxE where
  desc : Option Int
  requested : Bool
deriving DecidableEq, Repr

/-- cspec_ctx_stack_size_max -/
def ctxStackMax : Int := 20

/-- the engine fields of the process-wide state -/
structure Eng where
  /-- ctx_stack, as a total function on `Int` indices -/
  stack : Int → CtxE
  /-- ctx_stack_top -/
  top : Int
  /-- ctx_stack_index -/
  idx : Int
  /-- test_current_line -/
  cur : Int
  /-- test_in_progress -/
  prog : Bool
  /-- param_line (0 = run everything, -1 = end-of-run sentinel) -/
  pline : Int
  /-- test_skip -/
  skip : Bool
  /-- counts the capacity warnings emitted by _cspec_context_begin -/
  capWarns : Nat

/-- _cspec_context_begin from cspec.c. -/
def contextBegin (line : Int) (desc : Int) (s : Eng) : Bool × Eng :=
  if s.prog then (false, s)
  else if s.idx < s.top ∧ (s.stack (s.idx + 1)).desc = some desc then
    (true, { s with idx := s.idx + 1 })
  else if (s.stack s.idx).desc = some desc then (true, s)
  else if s.cur > line then (false, s)
  else
    let req := line == s.pline
    let s := if line = s.pline then { s with pline := 0 } else s
    let s := { s with cur := line }
    if s.top + 1 ≥ ctxStackMax then
      (false, { s with capWarns := s.capWarns + 1 })
    else
      let st := fun i => if i = s.top + 1 then CtxE.mk (some desc) req else s.stack i
      (true, { s with top := s.top + 1, idx := s.top + 1, stack := st })

/-- _cspec_context_end from cspec.c. -/
def contextEnd (line : Int) (s : Eng) : Bool × Eng :=
  if s.prog then (false, s)
  else
    let s := { s with cur := line + 1 }
    let s := if (s.stack s.top).requested then { s with pline := -1 } else s
    (true, { s with top := s.top - 1, idx := s.top - 1 })

/-- _cspec_begin from cspec.c (test headers/description bookkeeping and the
print-only verbose branch are not engine state). -/
def testBegin (line : Int) (s : Eng) : Bool × Eng :=
  if s.prog then (false, s)
  else if s.cur ≥ line then (false, s)
  else
    let s := { s with cur := line }
    if (s.pline = 0 ∨ s.pline = line) ∧ ¬ s.skip then (true, { s with prog := true })
    else (false, { s with prog := false })

/-- syntax of a test-group function body: a sequence of statements, each a
test block (`it`, whose body may return early on a failed expectation,
the `ab` flag) or a context block with a nested body.  `tst l ab r` is a
test at source line `l` followed by the statements `r`; `ctx l b r` is a
context block at line `l` with body `b` followed by `r`. -/
inductive B where
  | nil
  | tst (line : Int) (ab : Bool) (rest : B)
  | ctx (line : Int) (body : B) (rest : B)
deriving DecidableEq, Repr

/-- execution of a body as generated by the _test and _context macros:
a test runs its body when _cspec_begin allows; a context runs its body
when _cspec_context_begin allows, calls _cspec_context_begin again at the
closing marker and returns from the group function when
_cspec_context_end pops.  The `Bool` result is true when the group
function returned early. -/
def execB : B → Eng → Eng × Bool
  | .nil, s => (s, false)
  | .tst line ab rest, s =>
    let p := testBegin line s
    if p.1 then (if ab then (p.2, true) else execB rest p.2)
    else execB rest p.2
  | .ctx line body rest, s =>
    let p := contextBegin line line s
    if p.1 then
      let q := execB body p.2
      if q.2 then (q.1, true)
      else
        let r := contextBegin line line q.1
        if r.1 then
          let e := contextEnd line r.2
          if e.1 then (e.2, true) else execB rest e.2
        else execB rest r.2
    else execB rest p.2

/-- before_pass from cspec.c, restricted to the engine fields it touches
(ctx_stack_index and test_skip; the pass resets of the failure flags and
the memory sandbox live in the test/memory state). -/
def beforePass (s : Eng) : Eng := { s with idx := 0, skip := false }

/-- the engine-visible effect of the _cspec_end call process_function makes
between passes (clears test_in_progress; the counter and flag updates live
in the test/memory state). -/
def endPass (s : Eng) : Eng := if s.prog then { s with prog := false } else s

/-- the re-execution loop of process_function: run one pass; stop when the
pass ends with no test in progress and the line cursor equal to its value
at the start of the pass; `none` when the fuel runs out first. -/
def runGroupAux (body : B) : Eng → Nat → Option Eng
  | _, 0 => none
  | s, n + 1 =>
    let s1 := beforePass s
    let prev := s1.cur
    let s2 := (execB body s1).1
    if ¬ s2.prog ∧ prev = s2.cur then some s2
    else runGroupAux body (endPass s2) n

/-- context_clear_stack from cspec.c. -/
def clearStack (s : Eng) : Eng := { s with top := 0, idx := 0 }

/-- process_function from cspec.c: before_fn resets the line cursor, the
re-execution loop runs, and the context stack is cleared afterwards. -/
def processFunction (body : B) (s : Eng) (fuel : Nat) : Option Eng :=
  match runGroupAux body { s with cur := 0 } fuel with
  | some sf => some (clearStack sf)
  | none => none

/-- the initial engine state of the process (root context at index 0, all
other entries zero-initialised, everything else cleared), with the given
line-selection parameter. -/
def engInit (pl : Int) : Eng :=
  { stack := fun _ => ⟨none, false⟩, top := 0, idx := 0, cur := 0,
    prog := false, pline := pl, skip := false, capWarns := 0 }

/-! ### Well-formedness of group bodies and the termination measure -/

/-- the largest source line in a body (with accumulator). -/
def maxLineB : Int → B → Int
  | acc, .nil => acc
  | acc, .tst l _ r => maxLineB (max acc l) r
  | acc, .ctx l b r => maxLineB (maxLineB (max acc l) b) r

/-- well-formed body above a lower bound: source lines strictly increase in
source (preorder) order and every block of a context body sits below the
context line.  This is the layout the __LINE__-based macros produce. -/
def wfB : Int → B → Bool
  | _, .nil => true
  | lo, .tst l _ r => decide (lo < l) && wfB l r
  | lo, .ctx l b r => decide (lo < l) && wfB l b && wfB (maxLineB l b) r

/-- total weight of a body: 1 per test, 2 per context (enter and pop). -/
def muAll : B → Nat
  | .nil => 0
  | .tst _ _ r => 1 + muAll r
  | .ctx _ b r => 2 + muAll b + muAll r

/-- remaining weight of the innermost open region relative to the line
cursor: a test still counts while the cursor is below its line, a context
(with its whole subtree) while the cursor is at or below its line. -/
def muActive : B → Int → Nat
  | .nil, _ => 0
  | .tst l _ r, cur => (if cur < l then 1 else 0) + muActive r cur
  | .ctx l b r, cur => (if cur ≤ l then 2 + muAll b else 0) + muActive r cur

/-- remaining weight of a body relative to an open context chain and the
line cursor: blocks left of the chain path are spent, each chain context
still owes its pop, blocks right of the path count in full, and the body
of the innermost chain context is measured against the cursor. -/
def muChain : B → List Int → Int → Nat
  | t, [], cur => muActive t cur
  | .nil, _ :: _, _ => 0
  | .tst _ _ r, l :: ls, cur => muChain r (l :: ls) cur
  | .ctx l' b r, l :: ls, cur =>
    if l' = l then 1 + muChain b ls cur + muAll r
    else muChain r (l :: ls) cur

/-- the body of the top-level context block with the given line, if any. -/
def findCtx : B → Int → Option B
  | .nil, _ => none
  | .tst _ _ r, l => findCtx r l
  | .ctx l' b r, l => if l' = l then some b else findCtx r l

/-- the chain is a path of nested context blocks in the body. -/
def pathIn : B → List Int → Prop
  | _, [] => True
  | t, l :: ls => ∃ b, findCtx t l = some b ∧ pathIn b ls

/-- the stack entries base + 1, base + 2, ... spell out the chain. -/
def stackFrom (st : Int → CtxE) : Int → List Int → Prop
  | _, [] => True
  | base, l :: ls => (st (base + 1)).desc = some l ∧ stackFrom st (base + 1) ls

/-- pass-start invariant of the re-execution loop: no test in progress,
the root entry never overwritten, and the stack spells out a nested
context path whose lines are all at or below the line cursor. -/
def Inv (body : B) (s : Eng) : Prop :=
  s.prog = false ∧ (s.stack 0).desc = none ∧
  ∃ ch : List Int, s.top = (ch.length : Int) ∧ stackFrom s.stack 0 ch ∧
    pathIn body ch ∧ ∀ l ∈ ch, l ≤ s.cur

/-- states reachable from a process start through context enter/leave calls
and per-group resets, where a leave only occurs on a nonempty stack (the
discipline the _context macro enforces: _cspec_context_end runs only after
_cspec_context_begin returned true, which on a user description implies a
pushed frame). -/
inductive Reach : Eng → Prop where
  | init (pl : Int) : Reach (engInit pl)
  | enter (line desc : Int) {s : Eng} : Reach s → Reach (contextBegin line desc s).2
  | leave (line : Int) {s : Eng} : Reach s → 1 ≤ s.top → Reach (contextEnd line s).2
  | reset {s : Eng} : Reach s → Reach (clearStack s)

/-! ### Concrete states used by witnesses and counterexamples -/

/-- a base test/memory state: sandbox table allocated, inside a test group
function with a test in progress, everything else cleared. -/
def tsInit : TS :=
  { inFunction := true, inProgress := true, failed := false, expectFail := false,
    noExpectFail := false, memoryTest := true, tcount := 0, passed := 0,
    tableOn := true, mem := fun _ => 0, ptr := 0, records := [], mallocs := 0,
    frees := 0, expectErr := false, errored := false, mfail := .normal,
    forced := 0, log := [] }

/-- the record table is kept in strictly ascending block order (the bump
allocator only appends increasing blocks); this is the precondition of the
binary search in cspec_free. -/
def recsSorted (rs : List MRec) : Prop :=
  rs.Pairwise (fun a b => a.block < b.block)

/-- state after reset and two allocations of size 4 (blocks at 16 and 34,
payloads at 23 and 41): the input on which resizing a non-last record goes
wrong. -/
def c5state : TS :=
  (cspecMalloc (cspecMalloc (memoryTestReset true tsInit) 4).2 4).2

/-- a test that declared expect(to_fail) and then produced a memory error
(an invalid free of the pointer 5, outside the usable arena) but no
assertion failure. -/
def c3state : TS := cspecFree (expectToFail tsInit).2 (some 5)

/-- arbitrary writes by the test body inside the payload region
[p, p + n) between allocation and free. -/
def userWrites (p n : Nat) (u : Nat → Nat) (s : TS) : TS :=
  { s with mem := fun a => if p ≤ a ∧ a < p + n then u a else s.mem a }

/-- a base state sitting inside a running test (cspec_test_in_function and
cspec_test_in_progress both set), used to instantiate the roundtrip lemma. -/
def c4base : TS :=
  { tsInit with
    inFunction := true
    inProgress := true }

/-- a state with one live 4-byte allocation (payload 23) made during a
running test, used to exercise the free entry point at a concrete input. -/
def c7state : TS := (cspecMalloc (memoryTestReset true c4base) 4).2

/-- an engine state whose context stack is one short of full (top = 18, so
a push would reach index 19 = ctxStackMax - 1), sitting at the assert-level
boundary: pushing once more is allowed, and from top = 19 the next enter
hits the capacity check.  Used to witness the capacity branch. -/
def c8cap : Eng :=
  { stack := fun _ => ⟨none, false⟩, top := 19, idx := 19, cur := 0,
    prog := false, pline := 0, skip := false, capWarns := 0 }

/-- quiet outcome of one walk over a body: the group function fell through
without opening anything; the stack is untouched, the cursor may only have
moved forward (over filtered tests or failed pushes), and the remaining
weight of the body did not grow, shrinking strictly whenever the cursor
moved and the stack had room (so the only non-shrinking advance is a
failed capacity push). -/
abbrev WalkQuiet (t : B) (s s' : Eng) : Prop :=
  s'.prog = false ∧ s'.stack = s.stack ∧ s'.top = s.top ∧ s'.idx = s.idx ∧
  s.cur ≤ s'.cur ∧ muActive t s'.cur ≤ muActive t s.cur ∧
  (s.cur < s'.cur → s.top + 1 < ctxStackMax → muActive t s'.cur < muActive t s.cur)

/-- event outcome of one walk over a body: a test began or a context was
popped, the function stopped walking (test in progress or early return),
the stack now spells a new nested chain and the remaining weight shrank
strictly. -/
abbrev WalkEvent (t : B) (lo : Int) (rem : List Int) (s s' : Eng) (ret : Bool) : Prop :=
  ∃ ch : List Int, pathIn t ch ∧ (∀ l ∈ ch, l ≤ s'.cur) ∧
    s'.top = s.idx + ch.length ∧ s'.idx = s'.top ∧
    stackFrom s'.stack s.idx ch ∧
    (s'.prog = true ∨ ret = true) ∧ (s'.prog = false → ret = true) ∧
    lo < s'.cur ∧ (rem = [] → s.cur < s'.cur) ∧
    muChain t ch s'.cur < muChain t rem s.cur

/-- a small well-formed group body used to witness the termination claim:
a context at line 10 holding a test at line 20 and a nested context at
line 30 with an aborting test at line 40, followed by a test at line 50. -/
def c1body : B :=
  .ctx 10 (.tst 20 false (.ctx 30 (.tst 40 true .nil) .nil)) (.tst 50 false .nil)

/-- a freshly reset sandbox in which the test has declared
expect(memory_errors): the state right before an allocation that
exhausts the arena. -/
def c10state : TS := { memoryTestReset true tsInit with expectErr := true }

/-- agreement on every field the error-reporting helpers leave alone
(everything except test_failed, memory_error and the report record). -/
structure SameCore (s s' : TS) : Prop where
  inFunction : s'.inFunction = s.inFunction
  inProgress : s'.inProgress = s.inProgress
  expectFail : s'.expectFail = s.expectFail
  noExpectFail : s'.noExpectFail = s.noExpectFail
  memoryTest : s'.memoryTest = s.memoryTest
  tcount : s'.tcount = s.tcount
  passed : s'.passed = s.passed
  tableOn : s'.tableOn = s.tableOn
  mem : s'.mem = s.mem
  ptr : s'.ptr = s.ptr
  records : s'.records = s.records
  mallocs : s'.mallocs = s.mallocs
  frees : s'.frees = s.frees
  expectErr : s'.expectErr = s.expectErr
  mfail : s'.mfail = s.mfail
  forced : s'.forced = s.forced

end Cspec

namespace Cspec

/-! ### Helper lemmas about the error helpers and the final checks -/

theorem sameCore_refl (s : TS) : SameCore s s :=
  ⟨rfl, rfl, rfl, rfl, rfl, rfl, rfl, rfl, rfl, rfl, rfl, rfl, rfl, rfl, rfl, rfl⟩

theorem sameCore_trans {s t u : TS} (h1 : SameCore s t) (h2 : SameCore t u) :
    SameCore s u :=
  ⟨h2.inFunction.trans h1.inFunction, h2.inProgress.trans h1.inProgress,
    h2.expectFail.trans h1.expectFail, h2.noExpectFail.trans h1.noExpectFail,
    h2.memoryTest.trans h1.memoryTest, h2.tcount.trans h1.tcount,
    h2.passed.trans h1.passed, h2.tableOn.trans h1.tableOn,
    h2.mem.trans h1.mem, h2.ptr.trans h1.ptr, h2.records.trans h1.records,
    h2.mallocs.trans h1.mallocs, h2.frees.trans h1.frees,
    h2.expectErr.trans h1.expectErr, h2.mfail.trans h1.mfail,
    h2.forced.trans h1.forced⟩

theorem sameCore_errMem (m : String) (s : TS) : SameCore s (errMem m s) := by
  unfold errMem
  split
  · exact ⟨rfl, rfl, rfl, rfl, rfl, rfl, rfl, rfl, rfl, rfl, rfl, rfl, rfl, rfl, rfl, rfl⟩
  · exact sameCore_refl s

theorem sameCore_errFn (m : String) (s : TS) : SameCore s (errFn m s) := by
  unfold errFn
  split
  · exact ⟨rfl, rfl, rfl, rfl, rfl, rfl, rfl, rfl, rfl, rfl, rfl, rfl, rfl, rfl, rfl, rfl⟩
  · exact sameCore_refl s

theorem sameCore_foldl {α : Type} (step : TS → α → TS)
    (h : ∀ t x, SameCore t (step t x)) :
    ∀ (l : List α) (s : TS), SameCore s (l.foldl step s) := by
  intro l
  induction l with
  | nil => intro s; exact sameCore_refl s
  | cons x xs ih =>
    intro s
    exact sameCore_trans (h s x) (ih (step s x))

theorem sameCore_ite {s : TS} {c : Prop} [Decidable c] {t u : TS}
    (h1 : c → SameCore s t) (h2 : ¬ c → SameCore s u) :
    SameCore s (if c then t else u) := by
  split
  · exact h1 (by assumption)
  · exact h2 (by assumption)

theorem sameCore_poisonCheck (r : MRec) (t : TS) (j : Nat) :
    SameCore t (poisonCheck r t j) := by
  unfold poisonCheck
  exact sameCore_ite (fun _ => sameCore_errMem _ _) (fun _ => sameCore_refl _)

theorem sameCore_recCheck (t : TS) (r : MRec) : SameCore t (recCheck t r) := by
  unfold recCheck
  have hacc : SameCore t (if ¬ checkFence t.mem r then errMem msgAfterOverrun t else t) :=
    sameCore_ite (fun _ => sameCore_errMem _ _) (fun _ => sameCore_refl _)
  dsimp only
  cases hfree : r.isFree
  · simp only [hfree, Bool.false_eq_true, if_false]
    exact sameCore_trans hacc (sameCore_errMem _ _)
  · simp only [hfree, if_true]
    exact sameCore_trans hacc (sameCore_foldl _ (sameCore_poisonCheck r) _ _)

theorem sameCore_barCheck (t : TS) (i : Nat) : SameCore t (barCheck t i) := by
  unfold barCheck
  exact sameCore_ite (fun _ => sameCore_errMem _ _) (fun _ => sameCore_refl _)

theorem sameCore_mmStep (t : TS) :
    SameCore t (if t.mallocs ≠ t.frees then errMem msgMismatch t else t) :=
  sameCore_ite (fun _ => sameCore_errMem _ _) (fun _ => sameCore_refl _)

theorem sameCore_designStep (t : TS) :
    SameCore t (if t.mfail.ord ≥ MFail.wasExpected.ord ∧ t.forced = 0 then
      errFn msgFailNeverCalled t else t) :=
  sameCore_ite (fun _ => sameCore_errFn _ _) (fun _ => sameCore_refl _)

theorem sameCore_finalChecks (s : TS) : SameCore s (memoryFinalChecks s) := by
  unfold memoryFinalChecks
  dsimp only
  apply sameCore_trans (sameCore_foldl recCheck sameCore_recCheck s.records s)
  apply sameCore_trans (sameCore_foldl barCheck sameCore_barCheck (List.range barrierSize) _)
  apply sameCore_trans (sameCore_mmStep _)
  exact sameCore_designStep _

theorem sameCore_endState (s : TS) : SameCore s (endState s) := by
  unfold endState
  exact sameCore_ite (fun _ => sameCore_finalChecks s) (fun _ => sameCore_refl s)

/-- generic fold identity: a fold whose every step fixes the start state. -/
theorem foldl_fix {α : Type} (step : TS → α → TS) (s : TS) :
    ∀ l : List α, (∀ x ∈ l, step s x = s) → l.foldl step s = s := by
  intro l
  induction l with
  | nil => intro _; rfl
  | cons x xs ih =>
    intro h
    have hx : step s x = s := h x (List.mem_cons_self x xs)
    simp only [List.foldl_cons, hx]
    exact ih (fun y hy => h y (List.mem_cons_of_mem x hy))

/-- the final checks are the identity on a clean state: every record is
freed with intact fences and fully poisoned payload, the outer barriers are
intact, the allocation counters balance, and no forced failure is pending. -/
theorem finalChecks_clean (s : TS)
    (hrec : ∀ r ∈ s.records, checkFence s.mem r = true ∧ r.isFree = true ∧
      ∀ j, j < r.size → s.mem (r.block + fenceSize + j) = byteF)
    (hbar : ∀ i, i < barrierSize →
      s.mem i = byteBar ∧ s.mem (i + barrierSize + memMax) = byteBar)
    (hcnt : s.mallocs = s.frees)
    (hmf : s.mfail = .normal ∨ s.forced ≠ 0) :
    memoryFinalChecks s = s := by
  have h1 : s.records.foldl recCheck s = s := by
    apply foldl_fix
    intro r hr
    obtain ⟨hf, hfree, hpoison⟩ := hrec r hr
    unfold recCheck
    simp only [hf, not_true_eq_false, if_false, hfree, if_true]
    apply foldl_fix
    intro j hj
    have := hpoison j (List.mem_range.mp hj)
    simp [poisonCheck, this]
  have h2 : (List.range barrierSize).foldl barCheck s = s := by
    apply foldl_fix
    intro i hi
    obtain ⟨hb1, hb2⟩ := hbar i (List.mem_range.mp hi)
    simp [barCheck, hb1, hb2]
  unfold memoryFinalChecks
  dsimp only
  rw [h1, h2]
  rw [if_neg (not_not_intro hcnt)]
  rcases hmf with hmf | hmf
  · rw [if_neg]
    rintro ⟨ho, -⟩
    rw [hmf] at ho
    exact absurd ho (by decide)
  · rw [if_neg]
    rintro ⟨-, hz⟩
    exact hmf hz

/-- on a state that is clean except for a malloc/free imbalance, the final
checks report exactly the mismatch error. -/
theorem finalChecks_mismatch (s : TS)
    (hrec : ∀ r ∈ s.records, checkFence s.mem r = true ∧ r.isFree = true ∧
      ∀ j, j < r.size → s.mem (r.block + fenceSize + j) = byteF)
    (hbar : ∀ i, i < barrierSize →
      s.mem i = byteBar ∧ s.mem (i + barrierSize + memMax) = byteBar)
    (hcnt : s.mallocs ≠ s.frees)
    (hmf : s.mfail = .normal ∨ s.forced ≠ 0) :
    memoryFinalChecks s = errMem msgMismatch s := by
  have h1 : s.records.foldl recCheck s = s := by
    apply foldl_fix
    intro r hr
    obtain ⟨hf, hfree, hpoison⟩ := hrec r hr
    unfold recCheck
    simp only [hf, not_true_eq_false, if_false, hfree, if_true]
    apply foldl_fix
    intro j hj
    have := hpoison j (List.mem_range.mp hj)
    simp [poisonCheck, this]
  have h2 : (List.range barrierSize).foldl barCheck s = s := by
    apply foldl_fix
    intro i hi
    obtain ⟨hb1, hb2⟩ := hbar i (List.mem_range.mp hi)
    simp [barCheck, hb1, hb2]
  unfold memoryFinalChecks
  dsimp only
  rw [h1, h2]
  rw [if_pos hcnt]
  have hcore := sameCore_errMem msgMismatch s
  rcases hmf with hmf | hmf
  · rw [if_neg]
    rintro ⟨ho, -⟩
    rw [hcore.mfail, hmf] at ho
    exact absurd ho (by decide)
  · rw [if_neg]
    rintro ⟨-, hz⟩
    rw [hcore.forced] at hz
    exact hmf hz

/-- the Bool condition of _cspec_end spells out flag agreement. -/
theorem endCond_iff (a b c d : Bool) :
    (((!a).xor b) && ((!c).xor d)) = true ↔ (a.xor b = false ∧ c.xor d = false) := by
  revert a b c d
  decide

/-! ### Claims about _cspec_end and the directives -/

/-- _cspec_end passed-count update, spelled as a single equation (after the
final memory checks run, the passed counter bumps exactly when both flag
pairs agree). -/
theorem end_passed_eq (s : TS) (h : s.inProgress = true) :
    (cspecEnd s).2.passed =
      if ((endState s).failed).xor ((endState s).expectFail) = false ∧
          ((endState s).errored).xor ((endState s).expectErr) = false
      then s.passed + 1 else s.passed := by
  have hcore := sameCore_endState s
  unfold cspecEnd
  rw [if_neg (not_not_intro h)]
  dsimp only
  by_cases hb : ((!(endState s).failed).xor (endState s).expectFail &&
      (!(endState s).errored).xor (endState s).expectErr) = true
  · rw [if_pos hb, if_pos ((endCond_iff _ _ _ _).mp hb)]
    dsimp only
    rw [hcore.passed]
  · rw [if_neg hb, if_neg (fun hd => hb ((endCond_iff _ _ _ _).mpr hd))]
    have p1 : ∀ (m : String) (u : TS), (errFn m u).passed = u.passed :=
      fun m u => (sameCore_errFn m u).passed
    dsimp only
    simp only [apply_ite TS.passed, p1, ite_self]
    exact hcore.passed

/-- C2: for every invocation of endTest (_cspec_end) while a test is in
progress, the test is counted as passed (test_passed_count is incremented)
if and only if (failed XOR expectedToFail) is false and
(memoryError XOR memoryExpectedToFail) is false, the flags taken at the
decision point (after the final memory checks _cspec_end itself runs); in
every other case the passed count is unchanged. -/
theorem end_counts_passed_iff_flags_match (s : TS) (h : s.inProgress = true) :
    (cspecEnd s).2.passed =
      if ((endState s).failed).xor ((endState s).expectFail) = false ∧
          ((endState s).errored).xor ((endState s).expectErr) = false
      then s.passed + 1 else s.passed :=
  end_passed_eq s h

/-- C2 witness: the count equation applied at the concrete in-test state
tsInit. -/
theorem end_counts_passed_iff_flags_match_witness :
    tsInit.inProgress = true ∧
    (cspecEnd tsInit).2.passed =
      (if ((endState tsInit).failed).xor ((endState tsInit).expectFail) = false ∧
          ((endState tsInit).errored).xor ((endState tsInit).expectErr) = false
       then tsInit.passed + 1 else tsInit.passed) :=
  ⟨rfl, end_counts_passed_iff_flags_match tsInit rfl⟩

/-- C3 counterexample: a test declared with expect(to_fail) that produced a
memory error (an invalid free) and no assertion failure is NOT counted as
passed by _cspec_end (the run counter advances, the passed counter does
not, and the test is marked failed), contradicting the claim that at least
one memory error suffices for such a test to pass. -/
theorem expect_to_fail_memory_error_not_passed :
    c3state.expectFail = true ∧ c3state.errored = true ∧
    c3state.failed = false ∧ c3state.inProgress = true ∧
    (cspecEnd c3state).2.tcount = c3state.tcount + 1 ∧
    (cspecEnd c3state).2.passed = c3state.passed ∧
    (cspecEnd c3state).2.failed = true := by
  decide

/-- C3 (amended): for every test declared with the fail-expectation
directive (and no memory-error expectation), at endTest the test is counted
as passed iff it produced at least one assertion failure and no memory
error (flags taken at the decision point, after the final memory checks);
with no assertion failure, or with a memory error, it is counted as
failed. -/
theorem expect_to_fail_passed_iff_failed_without_memory_error (s : TS)
    (h : s.inProgress = true) (hef : s.expectFail = true)
    (hee : s.expectErr = false) :
    (cspecEnd s).2.passed =
      if (endState s).failed = true ∧ (endState s).errored = false
      then s.passed + 1 else s.passed := by
  have hcore := sameCore_endState s
  have h1 : (endState s).expectFail = true := hcore.expectFail.trans hef
  have h2 : (endState s).expectErr = false := hcore.expectErr.trans hee
  rw [end_passed_eq s h]
  rw [h1, h2]
  cases hf : (endState s).failed <;> cases he : (endState s).errored <;> simp

/-- C3 witness: the amended pass condition applied at the concrete state
of a test that has just declared expect(to_fail). -/
theorem expect_to_fail_passed_iff_failed_without_memory_error_witness :
    (expectToFail tsInit).2.inProgress = true ∧
    (expectToFail tsInit).2.expectFail = true ∧
    (expectToFail tsInit).2.expectErr = false ∧
    (cspecEnd (expectToFail tsInit).2).2.passed =
      (if (endState (expectToFail tsInit).2).failed = true ∧
          (endState (expectToFail tsInit).2).errored = false
       then (expectToFail tsInit).2.passed + 1 else (expectToFail tsInit).2.passed) :=
  ⟨by decide, by decide, by decide,
    expect_to_fail_passed_iff_failed_without_memory_error (expectToFail tsInit).2
      (by decide) (by decide) (by decide)⟩

/-- C10: when cspec_malloc fails because the arena has insufficient
remaining space, it clears memory_expect_error before recording the
out-of-test-memory error; consequently a test that declared
expect(memory_errors), whose only memory error is the arena exhaustion and
which is otherwise clean, is counted as failed by _cspec_end, not
passed. -/
theorem malloc_exhaustion_clears_expectation_and_fails_test (s : TS) (n : Nat)
    (hT : s.tableOn = true) (hF : s.inFunction = true) (hP : s.inProgress = true)
    (hn : n ≠ 0) (hmf : s.mfail = .normal)
    (hsp : s.ptr + fenceSize * 2 + n ≥ memMax - fenceSize * 2)
    (_hee : s.expectErr = true) (_her : s.errored = false)
    (hfl : s.failed = false) (hef : s.expectFail = false)
    (hmt : s.memoryTest = true)
    (hrec : s.records = []) (hcnt : s.mallocs = s.frees)
    (hbar : ∀ i, i < barrierSize →
      s.mem i = byteBar ∧ s.mem (i + barrierSize + memMax) = byteBar) :
    (cspecMalloc s n).1 = .null ∧
    (cspecMalloc s n).2.expectErr = false ∧
    (cspecMalloc s n).2.errored = true ∧
    (cspecMalloc s n).2.log = s.log ++ [msgOutOfMemory] ∧
    (cspecEnd (cspecMalloc s n).2).2.passed = s.passed ∧
    (cspecEnd (cspecMalloc s n).2).2.tcount = s.tcount + 1 := by
  have hmal : cspecMalloc s n = (.null, errMem msgOutOfMemory { s with expectErr := false }) := by
    unfold cspecMalloc
    rw [if_neg (by rw [hT, hF]; simp)]
    rw [if_neg hn]
    rw [if_neg (by rw [hmf]; decide)]
    dsimp only
    rw [if_pos hsp]
  have herr : errMem msgOutOfMemory { s with expectErr := false } =
      { s with expectErr := false, errored := true, log := s.log ++ [msgOutOfMemory] } := by
    unfold errMem
    rw [if_pos (show ({ s with expectErr := false } : TS).inProgress = true from hP)]
  rw [hmal, herr]
  refine ⟨rfl, rfl, rfl, rfl, ?_, ?_⟩
  all_goals {
    set s1 : TS := { s with expectErr := false, errored := true, log := s.log ++ [msgOutOfMemory] } with hs1
    have hclean : memoryFinalChecks s1 = s1 := by
      apply finalChecks_clean
      · intro r hr
        rw [show s1.records = s.records from rfl, hrec] at hr
        exact absurd hr (List.not_mem_nil r)
      · intro i hi
        exact hbar i hi
      · exact hcnt
      · exact Or.inl hmf
    have hend : endState s1 = s1 := by
      unfold endState
      rw [if_pos (by constructor <;> simp [hs1, hfl, hmt])]
      exact hclean
    unfold cspecEnd
    rw [if_neg (not_not_intro (show s1.inProgress = true from hP))]
    dsimp only
    rw [hend]
    rw [if_neg (by simp [hs1, hfl, hef])]
    simp [hs1, hef]
  }

/-- C10 witness: the exhaustion lemma applied at the concrete reset state
that declared expect(memory_errors), with an allocation of 4068 bytes. -/
theorem malloc_exhaustion_clears_expectation_and_fails_test_witness :
    c10state.expectErr = true ∧ (4068 : Nat) ≠ 0 ∧
    c10state.ptr + fenceSize * 2 + 4068 ≥ memMax - fenceSize * 2 ∧
    (cspecMalloc c10state 4068).1 = .null ∧
    (cspecMalloc c10state 4068).2.expectErr = false ∧
    (cspecMalloc c10state 4068).2.errored = true ∧
    (cspecEnd (cspecMalloc c10state 4068).2).2.passed = c10state.passed := by
  have h := malloc_exhaustion_clears_expectation_and_fails_test c10state 4068
    (by decide) (by decide) (by decide) (by decide) (by decide) (by decide)
    (by decide) (by decide) (by decide) (by decide) (by decide) (by decide)
    (by decide) (by decide)
  exact ⟨by decide, by decide, by decide, h.1, h.2.1, h.2.2.1, h.2.2.2.2.1⟩

/-! ### Byte-level helper lemmas -/

theorem memSet_in {m : Nat → Nat} {start c n a : Nat}
    (h1 : start ≤ a) (h2 : a < start + n) : memSet m start c n a = c := by
  unfold memSet
  rw [if_pos ⟨h1, h2⟩]

theorem memSet_out {m : Nat → Nat} {start c n a : Nat}
    (h : a < start ∨ start + n ≤ a) : memSet m start c n a = m a := by
  unfold memSet
  rw [if_neg]
  rintro ⟨h1, h2⟩
  rcases h with h | h
  · omega
  · omega

theorem checkFence_iff (m : Nat → Nat) (r : MRec) :
    checkFence m r = true ↔ ∀ i, i < fenceSize →
      m (r.block + i) = byteB ∧ m (r.block + i + fenceSize + r.size) = byteE := by
  unfold checkFence
  rw [List.all_eq_true]
  constructor
  · intro h i hi
    have := h i (List.mem_range.mpr hi)
    simpa only [Bool.and_eq_true, beq_iff_eq] using this
  · intro h i hi
    simp only [Bool.and_eq_true, beq_iff_eq]
    exact h i (List.mem_range.mp hi)

/-! ### C6: in-place realloc of the most recent allocation -/

/-- C6: for every call sandboxRealloc(p, n) where p is the payload pointer
of the most recently allocated record with old size m (m different from n,
fences intact, no forced-failure directive armed), the call returns p, the
payload bytes at offsets [0, min(m,n)) are unchanged, and when n > m the
bytes at offsets [m, n) hold the dirty pattern N (not zero) with the
trailing fence rewritten at offset n. -/
theorem realloc_last_in_place (s : TS) (rs : List MRec) (r : MRec) (p n : Nat)
    (hT : s.tableOn = true) (hF : s.inFunction = true)
    (hrec : s.records = rs ++ [r]) (hp : r.block + fenceSize = p)
    (hfen : checkFence s.mem r = true) (hne : n ≠ r.size)
    (hmf : s.mfail.ord < MFail.failOnce.ord) :
    (cspecRealloc s (some p) n).1 = .addr p ∧
    (∀ i, i < min r.size n → (cspecRealloc s (some p) n).2.mem (p + i) = s.mem (p + i)) ∧
    (r.size < n →
      (∀ i, r.size ≤ i → i < n → (cspecRealloc s (some p) n).2.mem (p + i) = byteN) ∧
      (∀ i, i < fenceSize → (cspecRealloc s (some p) n).2.mem (p + n + i) = byteE)) := by
  have hres : cspecRealloc s (some p) n = (.addr p,
      { s with
        mem := if n > r.size then
            memSet (memSet s.mem (r.block + fenceSize + n) byteE fenceSize)
              (r.block + fenceSize + r.size) byteN (n - r.size)
          else
            memSet (memSet s.mem (r.block + fenceSize + n) byteE fenceSize)
              (r.block + fenceSize + n + fenceSize) byteX (r.size - n),
        records := s.records.dropLast ++ [{ r with size := n }],
        ptr := r.block + fenceSize + n + fenceSize - barrierSize }) := by
    unfold cspecRealloc
    rw [if_neg (by rw [hT, hF]; simp)]
    dsimp only
    have hlast : s.records.getLast? = some r := by
      rw [hrec]
      exact List.getLast?_concat _
    rw [hlast]
    have hord : ¬ s.mfail.ord ≥ MFail.failOnce.ord := by omega
    split
    · rename_i r1 heq
      injection heq with heqr
      subst heqr
      rw [if_neg hord, if_pos hp, if_neg (not_not_intro hfen), if_neg (fun hh => hne hh)]
    · rename_i heq
      exact Option.noConfusion heq
  rw [hres]
  refine ⟨rfl, ?_, ?_⟩
  · intro i hi
    dsimp only
    rw [← hp]
    split
    · rw [memSet_out (by omega), memSet_out (by omega)]
    · rw [memSet_out (by omega), memSet_out (by omega)]
  · intro hgrow
    constructor
    · intro i h1 h2
      dsimp only
      rw [← hp]
      rw [if_pos hgrow]
      rw [memSet_in (by omega) (by omega)]
    · intro i hi
      dsimp only
      rw [← hp]
      rw [if_pos hgrow]
      rw [memSet_out (by omega), memSet_in (by omega) (by omega)]

/-- witness for C6: reset arena, allocate 5 bytes (payload at offset 23),
then realloc the same pointer to 9 bytes. -/
theorem realloc_last_in_place_witness :
    ((cspecMalloc (memoryTestReset true tsInit) 5).2.records = [] ++ [⟨5, 16, false⟩] ∧
      (16 : Nat) + fenceSize = 23 ∧
      checkFence (cspecMalloc (memoryTestReset true tsInit) 5).2.mem ⟨5, 16, false⟩ = true) ∧
    ((cspecRealloc (cspecMalloc (memoryTestReset true tsInit) 5).2 (some 23) 9).1 = .addr 23 ∧
      (∀ i, i < min 5 9 →
        (cspecRealloc (cspecMalloc (memoryTestReset true tsInit) 5).2 (some 23) 9).2.mem (23 + i) =
          (cspecMalloc (memoryTestReset true tsInit) 5).2.mem (23 + i)) ∧
      (5 < 9 →
        (∀ i, 5 ≤ i → i < 9 →
          (cspecRealloc (cspecMalloc (memoryTestReset true tsInit) 5).2 (some 23) 9).2.mem (23 + i) = byteN) ∧
        (∀ i, i < fenceSize →
          (cspecRealloc (cspecMalloc (memoryTestReset true tsInit) 5).2 (some 23) 9).2.mem (23 + 9 + i) = byteE))) :=
  ⟨⟨by decide, by decide, by decide⟩,
    realloc_last_in_place _ [] ⟨5, 16, false⟩ 23 9 (by decide) (by decide) (by decide)
      (by decide) (by decide) (by decide) (by decide)⟩

/-! ### Step lemmas for the allocator entry points -/

/-- cspec_malloc on a freshly reset arena (bump pointer at 0) returns the
payload offset 23 and lays out fence, dirty payload and fence. -/
theorem malloc_fresh (s : TS) (n : Nat)
    (hT : s.tableOn = true) (hF : s.inFunction = true)
    (h0 : s.ptr = 0) (hmf : s.mfail = .normal) (hn : 0 < n) (hmax : n ≤ 4067) :
    cspecMalloc s n = (.addr 23,
      { s with mallocs := s.mallocs + 1,
               records := s.records ++ [⟨n, 16, false⟩],
               mem := memSet (memSet (memSet s.mem 16 byteB fenceSize) 23 byteN n)
                 (23 + n) byteE fenceSize,
               ptr := fenceSize * 2 + n }) := by
  unfold cspecMalloc
  rw [if_neg (by rw [hT, hF]; simp)]
  rw [if_neg (by omega)]
  rw [if_neg (by rw [hmf]; decide)]
  rw [h0]
  rw [if_neg (by simp only [fenceSize, memMax]; omega)]
  dsimp only
  rw [if_neg (by simp)]
  norm_num [fenceSize, barrierSize]

/-- cspec_free on a pointer that is in range and matches a live record with
intact fences: poison, mark freed, count. -/
theorem free_found (s : TS) (a : Nat) (r : MRec)
    (hT : s.tableOn = true) (hF : s.inFunction = true)
    (hrange : barrierSize ≤ a ∧ a < barrierSize + memMax)
    (hfind : s.records.find? (fun q => q.block + fenceSize == a) = some r)
    (hlive : r.isFree = false) (hfen : checkFence s.mem r = true) :
    cspecFree s (some a) =
      { s with mem := memSet s.mem (r.block + fenceSize) byteF r.size,
               records := s.records.map
                 (fun q => if q.block + fenceSize == a then { q with isFree := true } else q),
               frees := s.frees + 1 } := by
  unfold cspecFree
  rw [if_neg (by rw [hT, hF]; simp)]
  dsimp only
  rw [if_neg (by omega)]
  rw [hfind]
  dsimp only
  rw [hlive]
  simp only [Bool.false_eq_true, if_false]
  rw [if_neg (not_not_intro hfen)]

/-- cspec_free on a pointer whose record is already freed (fences intact):
report the double free, then still poison, re-mark and count again. -/
theorem free_double (s : TS) (a : Nat) (r : MRec)
    (hT : s.tableOn = true) (hF : s.inFunction = true) (hP : s.inProgress = true)
    (hrange : barrierSize ≤ a ∧ a < barrierSize + memMax)
    (hfind : s.records.find? (fun q => q.block + fenceSize == a) = some r)
    (hfree : r.isFree = true) (hfen : checkFence s.mem r = true) :
    cspecFree s (some a) =
      { s with errored := true, log := s.log ++ [msgDoubleFree],
               mem := memSet s.mem (r.block + fenceSize) byteF r.size,
               records := s.records.map
                 (fun q => if q.block + fenceSize == a then { q with isFree := true } else q),
               frees := s.frees + 1 } := by
  unfold cspecFree
  rw [if_neg (by rw [hT, hF]; simp)]
  dsimp only
  rw [if_neg (by omega)]
  rw [hfind]
  dsimp only
  rw [hfree]
  simp only [if_true]
  have herr : errMem msgDoubleFree s =
      { s with errored := true, log := s.log ++ [msgDoubleFree] } := by
    unfold errMem
    rw [if_pos hP]
  rw [herr]
  dsimp only
  rw [if_neg (not_not_intro hfen)]

/-! ### C4: allocate, stay in bounds, free, pass the final checks -/

/-- C4: for every size n with 0 < n and n small enough to fit the arena,
starting from a freshly reset sandbox during a test, sandboxMalloc(n)
returns the non-NULL payload pointer (offset 23), and after arbitrary
writes confined to payload offsets [0,n) a sandboxFree of that pointer
leaves a state on which memory_final_checks is the identity (fences intact,
freed payload fully poisoned, no leak, outer barriers intact, malloc count
equal to free count), with no memory error recorded at any step. -/
theorem malloc_free_roundtrip_clean (base : TS) (n : Nat) (u : Nat → Nat)
    (hF : base.inFunction = true) (hP : base.inProgress = true)
    (hn : 0 < n) (hmax : n ≤ 4067) :
    (cspecMalloc (memoryTestReset true base) n).1 = .addr 23 ∧
    (cspecFree (userWrites 23 n u (cspecMalloc (memoryTestReset true base) n).2)
        (some 23)).mallocs = 1 ∧
    (cspecFree (userWrites 23 n u (cspecMalloc (memoryTestReset true base) n).2)
        (some 23)).frees = 1 ∧
    (cspecFree (userWrites 23 n u (cspecMalloc (memoryTestReset true base) n).2)
        (some 23)).log = base.log ∧
    (cspecFree (userWrites 23 n u (cspecMalloc (memoryTestReset true base) n).2)
        (some 23)).errored = false ∧
    memoryFinalChecks
        (cspecFree (userWrites 23 n u (cspecMalloc (memoryTestReset true base) n).2)
          (some 23)) =
      cspecFree (userWrites 23 n u (cspecMalloc (memoryTestReset true base) n).2)
        (some 23) := by
  have hs0 : memoryTestReset true base =
      { base with expectErr := false, forced := 0, mfail := .normal, errored := false,
                  mallocs := 0, frees := 0, records := [], ptr := 0, tableOn := true,
                  mem := memSet (memSet (memSet base.mem 0 byteBar barrierSize)
                    barrierSize byteX memMax) (barrierSize + memMax) byteBar barrierSize } := by
    unfold memoryTestReset
    rw [if_neg (not_not_intro rfl)]
  set s0 : TS := memoryTestReset true base with hs0d
  have hT0 : s0.tableOn = true := by rw [hs0]
  have hF0 : s0.inFunction = true := by rw [hs0]; exact hF
  have hP0 : s0.inProgress = true := by rw [hs0]; exact hP
  have hptr0 : s0.ptr = 0 := by rw [hs0]
  have hmf0 : s0.mfail = .normal := by rw [hs0]
  have hrec0 : s0.records = [] := by rw [hs0]
  have hmal0 : s0.mallocs = 0 := by rw [hs0]
  have hfre0 : s0.frees = 0 := by rw [hs0]
  have hlog0 : s0.log = base.log := by rw [hs0]
  have herr0 : s0.errored = false := by rw [hs0]
  have hm := malloc_fresh s0 n hT0 hF0 hptr0 hmf0 hn hmax
  rw [hm]
  dsimp only
  refine ⟨rfl, ?_⟩
  set s1 : TS := { s0 with
      mallocs := s0.mallocs + 1,
      records := s0.records ++ [⟨n, 16, false⟩],
      mem := memSet (memSet (memSet s0.mem 16 byteB fenceSize) 23 byteN n)
        (23 + n) byteE fenceSize,
      ptr := fenceSize * 2 + n } with hs1d
  set sW : TS := userWrites 23 n u s1 with hsWd
  have hrec1 : sW.records = [⟨n, 16, false⟩] := by
    simp only [hsWd, userWrites, hs1d, hrec0, List.nil_append]
  have hWmem : ∀ a : Nat, sW.mem a =
      if 23 ≤ a ∧ a < 23 + n then u a
      else memSet (memSet (memSet s0.mem 16 byteB fenceSize) 23 byteN n)
        (23 + n) byteE fenceSize a := by
    intro a
    simp only [hsWd, userWrites, hs1d]
  have hfind : sW.records.find? (fun q => q.block + fenceSize == 23) = some ⟨n, 16, false⟩ := by
    rw [hrec1]
    simp [List.find?, fenceSize]
  have hfenW : checkFence sW.mem ⟨n, 16, false⟩ = true := by
    rw [checkFence_iff]
    intro i hi
    simp only [fenceSize] at hi
    dsimp only
    constructor
    · rw [hWmem]
      rw [if_neg (by omega)]
      rw [memSet_out (by simp only [fenceSize]; omega)]
      rw [memSet_out (by omega)]
      rw [memSet_in (by omega) (by simp only [fenceSize]; omega)]
    · rw [hWmem]
      rw [if_neg (by simp only [fenceSize]; omega)]
      rw [memSet_in (by simp only [fenceSize]; omega) (by simp only [fenceSize]; omega)]
  have hfree := free_found sW 23 ⟨n, 16, false⟩
    (by simp only [hsWd, userWrites, hs1d]; exact hT0)
    (by simp only [hsWd, userWrites, hs1d]; exact hF0)
    (by constructor <;> simp [barrierSize, memMax])
    hfind rfl hfenW
  rw [hfree]
  dsimp only
  have hrecsF : sW.records.map
      (fun q => if q.block + fenceSize == 23 then { q with isFree := true } else q) =
      [⟨n, 16, true⟩] := by
    rw [hrec1]
    simp [fenceSize]
  have hmalW : sW.mallocs = 1 := by
    simp only [hsWd, userWrites, hs1d, hmal0]
  have hfreW : sW.frees = 0 := by
    simp only [hsWd, userWrites, hs1d]
    exact hfre0
  have hlogW : sW.log = base.log := by
    simp only [hsWd, userWrites, hs1d]
    exact hlog0
  have herrW : sW.errored = false := by
    simp only [hsWd, userWrites, hs1d]
    exact herr0
  have hmfW : sW.mfail = .normal := by
    simp only [hsWd, userWrites, hs1d]
    exact hmf0
  refine ⟨hmalW, by rw [hfreW], hlogW, herrW, ?_⟩
  apply finalChecks_clean
  · intro r hr
    dsimp only at hr
    rw [hrecsF] at hr
    rcases List.mem_singleton.mp hr with rfl
    refine ⟨?_, rfl, ?_⟩
    · rw [checkFence_iff]
      intro i hi
      simp only [fenceSize] at hi
      dsimp only
      constructor
      · rw [memSet_out (by simp only [fenceSize]; omega)]
        rw [hWmem]
        rw [if_neg (by omega)]
        rw [memSet_out (by simp only [fenceSize]; omega)]
        rw [memSet_out (by omega)]
        rw [memSet_in (by omega) (by simp only [fenceSize]; omega)]
      · rw [memSet_out (by simp only [fenceSize]; omega)]
        rw [hWmem]
        rw [if_neg (by simp only [fenceSize]; omega)]
        rw [memSet_in (by simp only [fenceSize]; omega) (by simp only [fenceSize]; omega)]
    · intro j hj
      have hj2 : j < n := hj
      dsimp only
      rw [memSet_in (by simp only [fenceSize]; omega) (by simp only [fenceSize]; omega)]
  · intro i hi
    simp only [barrierSize] at hi
    dsimp only
    have hsm0 : s0.mem = memSet (memSet (memSet base.mem 0 byteBar barrierSize)
        barrierSize byteX memMax) (barrierSize + memMax) byteBar barrierSize := by
      rw [hs0]
    constructor
    · rw [memSet_out (by simp only [fenceSize]; omega)]
      rw [hWmem]
      rw [if_neg (by omega)]
      rw [memSet_out (by simp only [fenceSize]; omega)]
      rw [memSet_out (by omega)]
      rw [memSet_out (by simp only [fenceSize]; omega)]
      rw [hsm0]
      rw [memSet_out (by simp only [barrierSize, memMax]; omega)]
      rw [memSet_out (by simp only [barrierSize, memMax]; omega)]
      rw [memSet_in (by omega) (by simp only [barrierSize]; omega)]
    · simp only [barrierSize, memMax]
      rw [memSet_out (by simp only [fenceSize]; omega)]
      rw [hWmem]
      rw [if_neg (by omega)]
      rw [memSet_out (by simp only [fenceSize]; omega)]
      rw [memSet_out (by omega)]
      rw [memSet_out (by simp only [fenceSize]; omega)]
      rw [hsm0]
      rw [memSet_in (by simp only [barrierSize, memMax]; omega)
        (by simp only [barrierSize, memMax]; omega)]
  · dsimp only
    rw [hmalW, hfreW]
  · left
    dsimp only
    exact hmfW

/-- C4 witness: the roundtrip lemma applied at the concrete in-test state
c4base, size 4 and the constant write pattern 42. -/
theorem malloc_free_roundtrip_clean_witness :
    c4base.inFunction = true ∧ c4base.inProgress = true ∧ 0 < 4 ∧ (4 : Nat) ≤ 4067 ∧
    (cspecMalloc (memoryTestReset true c4base) 4).1 = .addr 23 ∧
    memoryFinalChecks
        (cspecFree (userWrites 23 4 (fun _ => 42)
          (cspecMalloc (memoryTestReset true c4base) 4).2) (some 23)) =
      cspecFree (userWrites 23 4 (fun _ => 42)
        (cspecMalloc (memoryTestReset true c4base) 4).2) (some 23) := by
  have h := malloc_free_roundtrip_clean c4base 4 (fun _ => 42) rfl rfl
    (by decide) (by decide)
  exact ⟨rfl, rfl, by decide, by decide, h.1, h.2.2.2.2.2⟩

/-! ### C9: double free falls through and causes the mismatch error -/

/-- C9: when sandboxFree is called on a pointer whose record is already
marked free, after reporting the double-free error the operation still
falls through: it re-poisons the payload, re-marks the record freed and
increments the free counter again, so a malloc + free + free sequence on
one pointer reaches the final checks with malloc count 1 and free count 2
and therefore additionally raises the mismatched malloc/free error. -/
theorem double_free_falls_through_to_mismatch (base : TS) (n : Nat)
    (hF : base.inFunction = true) (hP : base.inProgress = true)
    (hn : 0 < n) (hmax : n ≤ 4067) :
    (cspecFree (cspecFree (cspecMalloc (memoryTestReset true base) n).2 (some 23))
        (some 23)).log = base.log ++ [msgDoubleFree] ∧
    (cspecFree (cspecFree (cspecMalloc (memoryTestReset true base) n).2 (some 23))
        (some 23)).errored = true ∧
    (cspecFree (cspecFree (cspecMalloc (memoryTestReset true base) n).2 (some 23))
        (some 23)).records = [⟨n, 16, true⟩] ∧
    (∀ j, j < n →
      (cspecFree (cspecFree (cspecMalloc (memoryTestReset true base) n).2 (some 23))
        (some 23)).mem (23 + j) = byteF) ∧
    (cspecFree (cspecFree (cspecMalloc (memoryTestReset true base) n).2 (some 23))
        (some 23)).mallocs = 1 ∧
    (cspecFree (cspecFree (cspecMalloc (memoryTestReset true base) n).2 (some 23))
        (some 23)).frees = 2 ∧
    (memoryFinalChecks
        (cspecFree (cspecFree (cspecMalloc (memoryTestReset true base) n).2 (some 23))
          (some 23))).log = base.log ++ [msgDoubleFree, msgMismatch] := by
  have hs0 : memoryTestReset true base =
      { base with expectErr := false, forced := 0, mfail := .normal, errored := false,
                  mallocs := 0, frees := 0, records := [], ptr := 0, tableOn := true,
                  mem := memSet (memSet (memSet base.mem 0 byteBar barrierSize)
                    barrierSize byteX memMax) (barrierSize + memMax) byteBar barrierSize } := by
    unfold memoryTestReset
    rw [if_neg (not_not_intro rfl)]
  set s0 : TS := memoryTestReset true base with hs0d
  have hT0 : s0.tableOn = true := by rw [hs0]
  have hF0 : s0.inFunction = true := by rw [hs0]; exact hF
  have hP0 : s0.inProgress = true := by rw [hs0]; exact hP
  have hptr0 : s0.ptr = 0 := by rw [hs0]
  have hmf0 : s0.mfail = .normal := by rw [hs0]
  have hrec0 : s0.records = [] := by rw [hs0]
  have hmal0 : s0.mallocs = 0 := by rw [hs0]
  have hfre0 : s0.frees = 0 := by rw [hs0]
  have hlog0 : s0.log = base.log := by rw [hs0]
  have hsm0 : s0.mem = memSet (memSet (memSet base.mem 0 byteBar barrierSize)
      barrierSize byteX memMax) (barrierSize + memMax) byteBar barrierSize := by
    rw [hs0]
  have hm := malloc_fresh s0 n hT0 hF0 hptr0 hmf0 hn hmax
  rw [hm]
  dsimp only
  set s1 : TS := { s0 with
      mallocs := s0.mallocs + 1,
      records := s0.records ++ [⟨n, 16, false⟩],
      mem := memSet (memSet (memSet s0.mem 16 byteB fenceSize) 23 byteN n)
        (23 + n) byteE fenceSize,
      ptr := fenceSize * 2 + n } with hs1d
  have hT1 : s1.tableOn = true := by simp only [hs1d]; exact hT0
  have hF1 : s1.inFunction = true := by simp only [hs1d]; exact hF0
  have hP1 : s1.inProgress = true := by simp only [hs1d]; exact hP0
  have hrec1 : s1.records = [⟨n, 16, false⟩] := by
    simp only [hs1d, hrec0, List.nil_append]
  have hmem1 : ∀ a : Nat, s1.mem a =
      memSet (memSet (memSet s0.mem 16 byteB fenceSize) 23 byteN n)
        (23 + n) byteE fenceSize a := by
    intro a
    simp only [hs1d]
  have hfind1 : s1.records.find? (fun q => q.block + fenceSize == 23) = some ⟨n, 16, false⟩ := by
    rw [hrec1]
    simp [List.find?, fenceSize]
  have hfen1 : checkFence s1.mem ⟨n, 16, false⟩ = true := by
    rw [checkFence_iff]
    intro i hi
    simp only [fenceSize] at hi
    dsimp only
    constructor
    · rw [memSet_out (by simp only [fenceSize]; omega)]
      rw [memSet_out (by omega)]
      rw [memSet_in (by omega) (by simp only [fenceSize]; omega)]
    · rw [memSet_in (by simp only [fenceSize]; omega) (by simp only [fenceSize]; omega)]
  have hfree1 := free_found s1 23 ⟨n, 16, false⟩ hT1 hF1
    (by constructor <;> simp [barrierSize, memMax])
    hfind1 rfl hfen1
  rw [hfree1]
  dsimp only
  set s2 : TS := { s1 with
      mem := memSet s1.mem (16 + fenceSize) byteF n,
      records := s1.records.map
        (fun q => if q.block + fenceSize == 23 then { q with isFree := true } else q),
      frees := s1.frees + 1 } with hs2d
  have hT2 : s2.tableOn = true := by simp only [hs2d]; exact hT1
  have hF2 : s2.inFunction = true := by simp only [hs2d]; exact hF1
  have hP2 : s2.inProgress = true := by simp only [hs2d]; exact hP1
  have hrec2 : s2.records = [⟨n, 16, true⟩] := by
    simp only [hs2d]
    simp [hrec0, fenceSize]
  have hmem2 : ∀ a : Nat, s2.mem a = memSet s1.mem (16 + fenceSize) byteF n a := by
    intro a
    simp only [hs2d]
  have hfind2 : s2.records.find? (fun q => q.block + fenceSize == 23) = some ⟨n, 16, true⟩ := by
    rw [hrec2]
    simp [List.find?, fenceSize]
  have hfen2 : checkFence s2.mem ⟨n, 16, true⟩ = true := by
    rw [checkFence_iff]
    intro i hi
    simp only [fenceSize] at hi
    dsimp only
    constructor
    · rw [memSet_out (by simp only [fenceSize]; omega)]
      rw [memSet_out (by simp only [fenceSize]; omega)]
      rw [memSet_out (by omega)]
      rw [memSet_in (by omega) (by simp only [fenceSize]; omega)]
    · rw [memSet_out (by simp only [fenceSize]; omega)]
      rw [memSet_in (by simp only [fenceSize]; omega) (by simp only [fenceSize]; omega)]
  have hfree2 := free_double s2 23 ⟨n, 16, true⟩ hT2 hF2 hP2
    (by constructor <;> simp [barrierSize, memMax])
    hfind2 rfl hfen2
  rw [hfree2]
  dsimp only
  set s3 : TS := { s2 with
      errored := true,
      log := s2.log ++ [msgDoubleFree],
      mem := memSet s2.mem (16 + fenceSize) byteF n,
      records := s2.records.map
        (fun q => if q.block + fenceSize == 23 then { q with isFree := true } else q),
      frees := s2.frees + 1 } with hs3d
  have hmal3 : s3.mallocs = 1 := by
    simp only [hs3d, hs2d, hs1d, hmal0]
  have hfre3 : s3.frees = 2 := by
    simp only [hs3d, hs2d, hs1d, hfre0]
  have hlog3 : s3.log = base.log ++ [msgDoubleFree] := by
    simp only [hs3d, hs2d, hs1d, hlog0]
  have hrec3 : s3.records = [⟨n, 16, true⟩] := by
    simp only [hs3d]
    simp [hrec0, fenceSize]
  have hmem3 : ∀ a : Nat, s3.mem a = memSet s2.mem (16 + fenceSize) byteF n a := by
    intro a
    simp only [hs3d]
  have hP3 : s3.inProgress = true := by simp only [hs3d]; exact hP2
  have hmf3 : s3.mfail = .normal := by
    simp only [hs3d, hs2d, hs1d]
    exact hmf0
  have hpoison3 : ∀ j, j < n → s3.mem (23 + j) = byteF := by
    intro j hj
    rw [hmem3]
    rw [memSet_in (by simp only [fenceSize]; omega) (by simp only [fenceSize]; omega)]
  have hfen3 : checkFence s3.mem ⟨n, 16, true⟩ = true := by
    rw [checkFence_iff]
    intro i hi
    simp only [fenceSize] at hi
    dsimp only
    constructor
    · rw [memSet_out (by simp only [fenceSize]; omega)]
      rw [memSet_out (by simp only [fenceSize]; omega)]
      rw [memSet_out (by simp only [fenceSize]; omega)]
      rw [memSet_out (by omega)]
      rw [memSet_in (by omega) (by simp only [fenceSize]; omega)]
    · rw [memSet_out (by simp only [fenceSize]; omega)]
      rw [memSet_out (by simp only [fenceSize]; omega)]
      rw [memSet_in (by simp only [fenceSize]; omega) (by simp only [fenceSize]; omega)]
  have hfc := finalChecks_mismatch s3
    (by
      intro r hr
      rw [hrec3] at hr
      rcases List.mem_singleton.mp hr with rfl
      refine ⟨hfen3, rfl, ?_⟩
      intro j hj
      have hj2 : j < n := hj
      dsimp only
      rw [memSet_in (by simp only [fenceSize]; omega) (by simp only [fenceSize]; omega)])
    (by
      intro i hi
      simp only [barrierSize] at hi
      constructor
      · rw [hmem3]
        rw [memSet_out (by simp only [fenceSize]; omega)]
        rw [hmem2]
        rw [memSet_out (by simp only [fenceSize]; omega)]
        rw [hmem1]
        rw [memSet_out (by simp only [fenceSize]; omega)]
        rw [memSet_out (by omega)]
        rw [memSet_out (by simp only [fenceSize]; omega)]
        rw [hsm0]
        rw [memSet_out (by simp only [barrierSize, memMax]; omega)]
        rw [memSet_out (by simp only [barrierSize, memMax]; omega)]
        rw [memSet_in (by omega) (by simp only [barrierSize]; omega)]
      · simp only [barrierSize, memMax]
        rw [memSet_out (by simp only [fenceSize]; omega)]
        rw [memSet_out (by simp only [fenceSize]; omega)]
        rw [memSet_out (by simp only [fenceSize]; omega)]
        rw [memSet_out (by omega)]
        rw [memSet_out (by simp only [fenceSize]; omega)]
        rw [hsm0]
        rw [memSet_in (by simp only [barrierSize, memMax]; omega)
          (by simp only [barrierSize, memMax]; omega)])
    (by rw [hmal3, hfre3]; decide)
    (Or.inl hmf3)
  refine ⟨hlog3, rfl, hrec3, hpoison3, hmal3, hfre3, ?_⟩
  rw [hfc]
  unfold errMem
  rw [if_pos hP3]
  simp [hlog0]

/-- C9 witness: the double-free lemma applied at the concrete in-test
state c4base and size 4. -/
theorem double_free_falls_through_to_mismatch_witness :
    c4base.inFunction = true ∧ c4base.inProgress = true ∧ 0 < 4 ∧ (4 : Nat) ≤ 4067 ∧
    (cspecFree (cspecFree (cspecMalloc (memoryTestReset true c4base) 4).2 (some 23))
        (some 23)).frees = 2 ∧
    (memoryFinalChecks
        (cspecFree (cspecFree (cspecMalloc (memoryTestReset true c4base) 4).2 (some 23))
          (some 23))).log = c4base.log ++ [msgDoubleFree, msgMismatch] := by
  have h := double_free_falls_through_to_mismatch c4base 4 rfl rfl
    (by decide) (by decide)
  exact ⟨rfl, rfl, by decide, by decide, h.2.2.2.2.2.1, h.2.2.2.2.2.2⟩

/-! ### C5: resizing a record that is not the last one -/

/-- C5: the spec says resizing any record other than the most recently
allocated one falls back to allocate-copy-free on that record. The code
does not: on c5state (two live 4-byte records with payloads 23 and 41),
realloc of the FIRST payload (23) to size 8 allocates the new block and
returns its payload 59, but it leaves the first record live, marks the
LAST record freed instead, and fills the new payload starting from the
last record's block start, so the copied bytes begin with the fence
byte 98 rather than the old payload bytes 78 stored at 23. -/
theorem realloc_nonlast_copies_and_frees_wrong_record :
    (cspecRealloc c5state (some 23) 8).1 = .addr 59 ∧
    (cspecRealloc c5state (some 23) 8).2.records[0]? = some ⟨4, 16, false⟩ ∧
    (cspecRealloc c5state (some 23) 8).2.records[1]? = some ⟨4, 34, true⟩ ∧
    c5state.mem 23 = byteN ∧
    (cspecRealloc c5state (some 23) 8).2.mem 59 = byteB := by
  decide

/-! ### C7: the free entry point raises errors exactly for invalid input -/

/-- C7: sandboxFree during a test raises a memory error exactly for invalid
inputs: NULL is a no-op with no error; a pointer outside the usable arena
range raises the out-of-bounds invalid-free error; an in-range pointer that
matches no recorded payload start raises the not-a-malloc-result error; a
pointer to a record already marked free raises the double-free error; a
broken fence raises the corruption error; and a valid free of a live record
with intact fences raises no error, poisons the payload with byte 70, marks
the record freed and increments the free counter by one. -/
theorem free_error_cases (s : TS) (a : Nat) (r : MRec)
    (hT : s.tableOn = true) (hF : s.inFunction = true) (hP : s.inProgress = true) :
    cspecFree s none = s ∧
    (a < barrierSize ∨ barrierSize + memMax ≤ a →
      (cspecFree s (some a)).errored = true ∧
      (cspecFree s (some a)).log = s.log ++ [msgFreeOob]) ∧
    (barrierSize ≤ a → a < barrierSize + memMax →
      s.records.find? (fun q => q.block + fenceSize == a) = none →
      (cspecFree s (some a)).errored = true ∧
      (cspecFree s (some a)).log = s.log ++ [msgFreeNotMalloc]) ∧
    (barrierSize ≤ a → a < barrierSize + memMax →
      s.records.find? (fun q => q.block + fenceSize == a) = some r →
      r.isFree = true → checkFence s.mem r = true →
      (cspecFree s (some a)).errored = true ∧
      (cspecFree s (some a)).log = s.log ++ [msgDoubleFree]) ∧
    (barrierSize ≤ a → a < barrierSize + memMax →
      s.records.find? (fun q => q.block + fenceSize == a) = some r →
      r.isFree = false → checkFence s.mem r = false →
      (cspecFree s (some a)).errored = true ∧
      (cspecFree s (some a)).log = s.log ++ [msgFreeFence]) ∧
    (barrierSize ≤ a → a < barrierSize + memMax →
      s.records.find? (fun q => q.block + fenceSize == a) = some r →
      r.isFree = false → checkFence s.mem r = true →
      (cspecFree s (some a)).errored = s.errored ∧
      (cspecFree s (some a)).log = s.log ∧
      (cspecFree s (some a)).frees = s.frees + 1 ∧
      (∀ j, j < r.size → (cspecFree s (some a)).mem (r.block + fenceSize + j) = byteF) ∧
      (cspecFree s (some a)).records = s.records.map
        (fun q => if q.block + fenceSize == a then { q with isFree := true } else q)) := by
  have hok : ¬ (¬ s.tableOn = true ∨ ¬ s.inFunction = true) := by
    rw [hT, hF]
    simp
  refine ⟨?_, ?_, ?_, ?_, ?_, ?_⟩
  · unfold cspecFree
    rw [if_neg hok]
  · intro hoob
    have : cspecFree s (some a) = errMem msgFreeOob s := by
      unfold cspecFree
      rw [if_neg hok]
      dsimp only
      rw [if_pos (by omega)]
    rw [this]
    unfold errMem
    rw [if_pos hP]
    exact ⟨rfl, rfl⟩
  · intro h1 h2 hfind
    have : cspecFree s (some a) = errMem msgFreeNotMalloc s := by
      unfold cspecFree
      rw [if_neg hok]
      dsimp only
      rw [if_neg (by omega)]
      rw [hfind]
    rw [this]
    unfold errMem
    rw [if_pos hP]
    exact ⟨rfl, rfl⟩
  · intro h1 h2 hfind hfree hfen
    rw [free_double s a r hT hF hP ⟨h1, h2⟩ hfind hfree hfen]
    exact ⟨rfl, rfl⟩
  · intro h1 h2 hfind hlive hfen
    have : cspecFree s (some a) =
        { errMem msgFreeFence s with
          mem := memSet (errMem msgFreeFence s).mem (r.block + fenceSize) byteF r.size,
          records := (errMem msgFreeFence s).records.map
            (fun q => if q.block + fenceSize == a then { q with isFree := true } else q),
          frees := (errMem msgFreeFence s).frees + 1 } := by
      unfold cspecFree
      rw [if_neg hok]
      dsimp only
      rw [if_neg (by omega)]
      rw [hfind]
      dsimp only
      rw [hlive]
      simp only [Bool.false_eq_true, if_false]
      rw [if_pos (by rw [hfen]; decide)]
    rw [this]
    unfold errMem
    rw [if_pos hP]
    exact ⟨rfl, rfl⟩
  · intro h1 h2 hfind hlive hfen
    rw [free_found s a r hT hF ⟨h1, h2⟩ hfind hlive hfen]
    refine ⟨rfl, rfl, rfl, ?_, rfl⟩
    intro j hj
    dsimp only
    rw [memSet_in (by omega) (by omega)]

/-- C7 witness: the case analysis applied at the concrete one-allocation
state c7state, pointer 5 (out of bounds) and the live record at block 16. -/
theorem free_error_cases_witness :
    c7state.tableOn = true ∧ c7state.inFunction = true ∧ c7state.inProgress = true ∧
    cspecFree c7state none = c7state ∧
    ((5 : Nat) < barrierSize ∨ barrierSize + memMax ≤ 5) ∧
    (cspecFree c7state (some 5)).errored = true ∧
    (cspecFree c7state (some 5)).log = c7state.log ++ [msgFreeOob] := by
  have h := free_error_cases c7state 5 ⟨4, 16, false⟩ (by decide) (by decide) (by decide)
  have h2 := h.2.1 (by decide)
  exact ⟨by decide, by decide, by decide, h.1, by decide, h2.1, h2.2⟩

/-! ### C8: bounds on the context stack depth -/

/-- one call to _cspec_context_begin either leaves the stack top and the
root entry alone, or pushes exactly one frame below the capacity bound
without touching entry 0 (as long as the top was not negative). -/
theorem contextBegin_top_cases (line desc : Int) (s : Eng) :
    ((contextBegin line desc s).2.top = s.top ∧
      (contextBegin line desc s).2.stack 0 = s.stack 0) ∨
    (s.top + 1 < ctxStackMax ∧ (contextBegin line desc s).2.top = s.top + 1 ∧
      (0 ≤ s.top → (contextBegin line desc s).2.stack 0 = s.stack 0)) := by
  unfold contextBegin
  split
  · left; exact ⟨rfl, rfl⟩
  split
  · left; exact ⟨rfl, rfl⟩
  split
  · left; exact ⟨rfl, rfl⟩
  split
  · left; exact ⟨rfl, rfl⟩
  dsimp only
  split
  · split
    · left; exact ⟨rfl, rfl⟩
    · rename_i hcap
      have hcap2 : ¬ s.top + 1 ≥ ctxStackMax := hcap
      right
      refine ⟨by omega, rfl, ?_⟩
      intro h0
      dsimp only
      rw [if_neg (by omega)]
  · split
    · left; exact ⟨rfl, rfl⟩
    · rename_i hcap
      have hcap2 : ¬ s.top + 1 ≥ ctxStackMax := hcap
      right
      refine ⟨by omega, rfl, ?_⟩
      intro h0
      dsimp only
      rw [if_neg (by omega)]

/-- every state reachable through enter/leave calls and resets keeps
0 ≤ ctx_stack_top < ctxStackMax and never overwrites the root entry. -/
theorem reach_inv (s : Eng) (hs : Reach s) :
    0 ≤ s.top ∧ s.top < ctxStackMax ∧ (s.stack 0).desc = none := by
  induction hs with
  | init pl => exact ⟨le_refl 0, by norm_num [engInit, ctxStackMax], rfl⟩
  | enter line desc hs ih =>
    rcases contextBegin_top_cases line desc _ with ⟨ht, hst⟩ | ⟨hlt, ht, hst⟩
    · exact ⟨by rw [ht]; exact ih.1, by rw [ht]; exact ih.2.1,
        by rw [hst]; exact ih.2.2⟩
    · refine ⟨?_, ?_, ?_⟩
      · have := ih.1
        rw [ht]
        omega
      · rw [ht]
        exact hlt
      · rw [hst ih.1]
        exact ih.2.2
  | leave line hs htop ih =>
    unfold contextEnd
    split
    · exact ih
    · dsimp only
      have h1 := ih.1
      have h2 := ih.2.1
      split
      · exact ⟨by dsimp only; omega, by dsimp only; omega, ih.2.2⟩
      · exact ⟨by dsimp only; omega, by dsimp only; omega, ih.2.2⟩
  | reset hs ih =>
    exact ⟨le_refl 0, by norm_num [clearStack, ctxStackMax], ih.2.2⟩

/-- C8 counterexample: the claim quantifies over any sequence of enter and
leave calls, but _cspec_context_end never checks the stack top (its assert
is compiled out by the faulty assert macro): a single leave call from the
freshly initialised engine pops the root frame and drives the top to -1,
violating 0 ≤ ctx_stack_top. -/
theorem ctx_leave_pops_root_from_init :
    (contextEnd 5 (engInit 0)).1 = true ∧ (contextEnd 5 (engInit 0)).2.top = -1 := by
  decide

/-- C8 (amended): along any sequence of enter calls, leave calls made under
the discipline of the _context macro (a leave only after a successful push,
so only on a nonempty stack), and per-group resets, the stack depth keeps
0 ≤ ctx_stack_top < cspec_ctx_stack_size_max and the root frame at index 0
is never overwritten or popped; and an enter call reaching the fresh-push
path on a full stack (top + 1 ≥ max) emits the capacity warning and
returns false without pushing or writing a frame. -/
theorem ctx_stack_depth_bounded (s t : Eng) (line desc : Int)
    (hs : Reach s)
    (hp : t.prog = false)
    (hnr : ¬ (t.idx < t.top ∧ (t.stack (t.idx + 1)).desc = some desc))
    (hnm : ¬ (t.stack t.idx).desc = some desc)
    (hline : t.cur ≤ line)
    (hcap : t.top + 1 ≥ ctxStackMax) :
    (0 ≤ s.top ∧ s.top < ctxStackMax ∧ (s.stack 0).desc = none) ∧
    ((contextBegin line desc t).1 = false ∧
      (contextBegin line desc t).2.top = t.top ∧
      (contextBegin line desc t).2.stack = t.stack ∧
      (contextBegin line desc t).2.capWarns = t.capWarns + 1) := by
  refine ⟨reach_inv s hs, ?_⟩
  unfold contextBegin
  rw [if_neg (by rw [hp]; simp)]
  rw [if_neg hnr]
  rw [if_neg hnm]
  rw [if_neg (by omega)]
  dsimp only
  split
  · exact ⟨rfl, rfl, rfl, rfl⟩
  · exact ⟨rfl, rfl, rfl, rfl⟩

/-- C8 witness: the amended bound applied to the freshly initialised
engine and, for the capacity branch, to the full-stack state c8cap with
an enter at line 5 and description 7. -/
theorem ctx_stack_depth_bounded_witness :
    Reach (engInit 0) ∧
    (0 ≤ (engInit 0).top ∧ (engInit 0).top < ctxStackMax ∧
      ((engInit 0).stack 0).desc = none) ∧
    ((contextBegin 5 7 c8cap).1 = false ∧
      (contextBegin 5 7 c8cap).2.top = c8cap.top ∧
      (contextBegin 5 7 c8cap).2.capWarns = c8cap.capWarns + 1) := by
  have h := ctx_stack_depth_bounded (engInit 0) c8cap 5 7 (Reach.init 0)
    (by decide) (by decide) (by decide) (by decide) (by decide)
  exact ⟨Reach.init 0, h.1, h.2.1, h.2.2.1, h.2.2.2.2⟩

/-! ### C1: termination of the re-execution loop.  First the step behaviour
of the three engine primitives, then bounds on the termination measure,
then the walk lemma and the loop itself. -/

/-- _cspec_end between passes only clears test_in_progress. -/
theorem endPass_fields (s : Eng) :
    (endPass s).prog = false ∧ (endPass s).stack = s.stack ∧
    (endPass s).top = s.top ∧ (endPass s).idx = s.idx ∧
    (endPass s).cur = s.cur := by
  unfold endPass
  split
  · exact ⟨rfl, rfl, rfl, rfl, rfl⟩
  · rename_i h
    simp only [Bool.not_eq_true] at h
    exact ⟨h, rfl, rfl, rfl, rfl⟩

/-- while a test is in progress every primitive refuses, so the rest of
the group function falls through unchanged. -/
theorem execB_absorb (t : B) : ∀ s : Eng, s.prog = true → execB t s = (s, false) := by
  induction t with
  | nil => intro s hp; rfl
  | tst line ab rest ih =>
    intro s hp
    show execB (.tst line ab rest) s = (s, false)
    unfold execB testBegin
    rw [if_pos hp]
    dsimp only
    rw [if_neg (by simp)]
    exact ih s hp
  | ctx line body rest ihb ihr =>
    intro s hp
    show execB (.ctx line body rest) s = (s, false)
    unfold execB contextBegin
    rw [if_pos hp]
    dsimp only
    rw [if_neg (by simp)]
    exact ihr s hp

/-- _cspec_begin on a line the cursor has already reached: refused, state
unchanged. -/
theorem testBegin_skip (line : Int) (s : Eng) (hp : s.prog = false)
    (h : line ≤ s.cur) : testBegin line s = (false, s) := by
  unfold testBegin
  rw [if_neg (by rw [hp]; simp)]
  rw [if_pos (by omega)]

/-- _cspec_begin on a fresh line that passes the parameter filter: the
test begins. -/
theorem testBegin_go (line : Int) (s : Eng) (hp : s.prog = false)
    (h : s.cur < line) (hf : (s.pline = 0 ∨ s.pline = line) ∧ ¬ s.skip = true) :
    testBegin line s = (true, { s with cur := line, prog := true }) := by
  unfold testBegin
  rw [if_neg (by rw [hp]; simp)]
  rw [if_neg (by omega)]
  dsimp only
  rw [if_pos hf]

/-- _cspec_begin on a fresh line filtered out by the parameter line or the
skip flag: cursor advances, no test begins. -/
theorem testBegin_filtered (line : Int) (s : Eng) (hp : s.prog = false)
    (h : s.cur < line) (hf : ¬ ((s.pline = 0 ∨ s.pline = line) ∧ ¬ s.skip = true)) :
    testBegin line s = (false, { s with cur := line, prog := false }) := by
  unfold testBegin
  rw [if_neg (by rw [hp]; simp)]
  rw [if_neg (by omega)]
  dsimp only
  rw [if_neg hf]

/-- _cspec_context_begin replaying the next deeper frame of the stack. -/
theorem contextBegin_replay (line d : Int) (s : Eng) (hp : s.prog = false)
    (h : s.idx < s.top ∧ (s.stack (s.idx + 1)).desc = some d) :
    contextBegin line d s = (true, { s with idx := s.idx + 1 }) := by
  unfold contextBegin
  rw [if_neg (by rw [hp]; simp)]
  rw [if_pos h]

/-- _cspec_context_begin at the closing marker of the frame the walk is
inside: succeeds without moving. -/
theorem contextBegin_match (line d : Int) (s : Eng) (hp : s.prog = false)
    (hnr : ¬ (s.idx < s.top ∧ (s.stack (s.idx + 1)).desc = some d))
    (hm : (s.stack s.idx).desc = some d) :
    contextBegin line d s = (true, s) := by
  unfold contextBegin
  rw [if_neg (by rw [hp]; simp)]
  rw [if_neg hnr]
  rw [if_pos hm]

/-- _cspec_context_begin on a block the cursor has already passed:
refused, state unchanged. -/
theorem contextBegin_late (line d : Int) (s : Eng) (hp : s.prog = false)
    (hnr : ¬ (s.idx < s.top ∧ (s.stack (s.idx + 1)).desc = some d))
    (hnm : ¬ (s.stack s.idx).desc = some d)
    (h : line < s.cur) : contextBegin line d s = (false, s) := by
  unfold contextBegin
  rw [if_neg (by rw [hp]; simp)]
  rw [if_neg hnr]
  rw [if_neg hnm]
  rw [if_pos (by omega)]

/-- _cspec_context_begin entering a fresh block with the stack full: the
capacity warning, no push. -/
theorem contextBegin_capfail (line d : Int) (s : Eng) (hp : s.prog = false)
    (hnr : ¬ (s.idx < s.top ∧ (s.stack (s.idx + 1)).desc = some d))
    (hnm : ¬ (s.stack s.idx).desc = some d)
    (h : s.cur ≤ line) (hcap : ctxStackMax ≤ s.top + 1) :
    contextBegin line d s = (false,
      { s with pline := if line = s.pline then 0 else s.pline, cur := line,
               capWarns := s.capWarns + 1 }) := by
  unfold contextBegin
  rw [if_neg (by rw [hp]; simp)]
  rw [if_neg hnr]
  rw [if_neg hnm]
  rw [if_neg (by omega)]
  dsimp only
  split
  · rfl
  · rfl

/-- _cspec_context_begin entering a fresh block with room on the stack:
push one frame. -/
theorem contextBegin_push (line d : Int) (s : Eng) (hp : s.prog = false)
    (hnr : ¬ (s.idx < s.top ∧ (s.stack (s.idx + 1)).desc = some d))
    (hnm : ¬ (s.stack s.idx).desc = some d)
    (h : s.cur ≤ line) (hcap : s.top + 1 < ctxStackMax) :
    contextBegin line d s = (true,
      { s with pline := if line = s.pline then 0 else s.pline, cur := line,
               top := s.top + 1, idx := s.top + 1,
               stack := fun i => if i = s.top + 1 then ⟨some d, line == s.pline⟩
                 else s.stack i }) := by
  unfold contextBegin
  rw [if_neg (by rw [hp]; simp)]
  rw [if_neg hnr]
  rw [if_neg hnm]
  rw [if_neg (by omega)]
  dsimp only
  split
  · dsimp only
    rw [if_neg (by omega)]
  · rw [if_neg (by omega)]

/-- _cspec_context_end outside a test: advance the cursor past the block,
maybe disarm the parameter line, pop. -/
theorem contextEnd_go (line : Int) (s : Eng) (hp : s.prog = false) :
    contextEnd line s = (true,
      { s with cur := line + 1,
               pline := if (s.stack s.top).requested then -1 else s.pline,
               top := s.top - 1, idx := s.top - 1 }) := by
  unfold contextEnd
  rw [if_neg (by rw [hp]; simp)]
  dsimp only
  split
  · rfl
  · rfl

/-- the accumulator bounds maxLineB from below. -/
theorem maxLineB_le (t : B) : ∀ acc : Int, acc ≤ maxLineB acc t := by
  induction t with
  | nil => intro acc; exact le_refl acc
  | tst l ab r ih =>
    intro acc
    calc acc ≤ max acc l := le_max_left acc l
    _ ≤ maxLineB (max acc l) r := ih (max acc l)
  | ctx l b r ihb ihr =>
    intro acc
    calc acc ≤ max acc l := le_max_left acc l
    _ ≤ maxLineB (max acc l) b := ihb (max acc l)
    _ ≤ maxLineB (maxLineB (max acc l) b) r := ihr _

/-- in a body well-formed above lo, any context block found by line sits
strictly above lo. -/
theorem wf_findCtx_gt (t : B) : ∀ (lo l : Int) (b : B), wfB lo t = true →
    findCtx t l = some b → lo < l := by
  induction t with
  | nil => intro lo l b _ hf; exact absurd hf (by simp [findCtx])
  | tst l0 ab r ih =>
    intro lo l b hw hf
    simp only [wfB, Bool.and_eq_true, decide_eq_true_eq] at hw
    have := ih l0 l b hw.2 hf
    omega
  | ctx l0 b0 r ihb ihr =>
    intro lo l b hw hf
    simp only [wfB, Bool.and_eq_true, decide_eq_true_eq] at hw
    simp only [findCtx] at hf
    by_cases hl : l0 = l
    · omega
    · rw [if_neg hl] at hf
      have h2 := ihr (maxLineB l0 b0) l b hw.2 hf
      have h3 := maxLineB_le b0 l0
      omega

/-- in a body well-formed above lo, the body of any context block found by
line is well-formed above that line. -/
theorem wf_findCtx_wf (t : B) : ∀ (lo l : Int) (b : B), wfB lo t = true →
    findCtx t l = some b → wfB l b = true := by
  induction t with
  | nil => intro lo l b _ hf; exact absurd hf (by simp [findCtx])
  | tst l0 ab r ih =>
    intro lo l b hw hf
    simp only [wfB, Bool.and_eq_true, decide_eq_true_eq] at hw
    exact ih l0 l b hw.2 hf
  | ctx l0 b0 r ihb ihr =>
    intro lo l b hw hf
    simp only [wfB, Bool.and_eq_true, decide_eq_true_eq] at hw
    simp only [findCtx] at hf
    by_cases hl : l0 = l
    · rw [if_pos hl] at hf
      injection hf with hf
      subst hf
      subst hl
      exact hw.1.2
    · rw [if_neg hl] at hf
      exact ihr (maxLineB l0 b0) l b hw.2 hf

/-- the live weight never exceeds the total weight. -/
theorem muActive_le_muAll (t : B) : ∀ cur : Int, muActive t cur ≤ muAll t := by
  induction t with
  | nil => intro cur; exact le_refl 0
  | tst l ab r ih =>
    intro cur
    simp only [muActive, muAll]
    have := ih cur
    split <;> omega
  | ctx l b r ihb ihr =>
    intro cur
    simp only [muActive, muAll]
    have := ihr cur
    split <;> omega

/-- the live weight only shrinks as the cursor advances. -/
theorem muActive_mono (t : B) : ∀ cur cur' : Int, cur ≤ cur' →
    muActive t cur' ≤ muActive t cur := by
  induction t with
  | nil => intro _ _ _; exact le_refl 0
  | tst l ab r ih =>
    intro cur cur' h
    simp only [muActive]
    have := ih cur cur' h
    split <;> split <;> omega
  | ctx l b r ihb ihr =>
    intro cur cur' h
    simp only [muActive]
    have := ihr cur cur' h
    split <;> split <;> omega

/-- while the cursor sits at or below the well-formedness bound, the whole
body is still live. -/
theorem muActive_eq_muAll (t : B) : ∀ (lo cur : Int), wfB lo t = true →
    cur ≤ lo → muActive t cur = muAll t := by
  induction t with
  | nil => intro lo cur _ _; rfl
  | tst l ab r ih =>
    intro lo cur hw hc
    simp only [wfB, Bool.and_eq_true, decide_eq_true_eq] at hw
    simp only [muActive, muAll]
    rw [if_pos (by omega)]
    rw [ih l cur hw.2 (by omega)]
  | ctx l b r ihb ihr =>
    intro lo cur hw hc
    simp only [wfB, Bool.and_eq_true, decide_eq_true_eq] at hw
    simp only [muActive, muAll]
    rw [if_pos (by omega)]
    have := maxLineB_le b l
    rw [ihr (maxLineB l b) cur hw.2 (by omega)]

/-- _cspec_context_begin during a test: refused. -/
theorem contextBegin_prog (line d : Int) (s : Eng) (hp : s.prog = true) :
    contextBegin line d s = (false, s) := by
  unfold contextBegin
  rw [if_pos hp]

/-- a refused test header: the walk continues after it. -/
theorem execB_tst_refuse (line : Int) (ab : Bool) (rest : B) (s s2 : Eng)
    (hcb : testBegin line s = (false, s2)) :
    execB (.tst line ab rest) s = execB rest s2 := by
  unfold execB
  rw [hcb]
  dsimp only
  simp only [Bool.false_eq_true, if_false]
  rw [execB.eq_def]

/-- a test that begins: its body runs (returning early if an expectation
aborts), and the rest of the walk is absorbed by the in-progress flag. -/
theorem execB_tst_begin (line : Int) (ab : Bool) (rest : B) (s s1 : Eng)
    (hcb : testBegin line s = (true, s1)) (hs1 : s1.prog = true) :
    execB (.tst line ab rest) s = (s1, ab) := by
  unfold execB
  rw [hcb]
  dsimp only
  rw [if_pos rfl]
  cases ab
  · rw [if_neg (by simp)]
    rw [execB_absorb rest s1 hs1]
  · rw [if_pos rfl]

/-- a refused context header: the walk continues after the block. -/
theorem execB_ctx_refuse (line : Int) (body rest : B) (s s2 : Eng)
    (hcb : contextBegin line line s = (false, s2)) :
    execB (.ctx line body rest) s = execB rest s2 := by
  unfold execB
  rw [hcb]
  dsimp only
  simp only [Bool.false_eq_true, if_false]
  rw [execB.eq_def]

/-- an entered context whose body returned early: the return propagates. -/
theorem execB_ctx_ret (line : Int) (body rest : B) (s s1 sq : Eng)
    (hcb : contextBegin line line s = (true, s1))
    (hq : execB body s1 = (sq, true)) :
    execB (.ctx line body rest) s = (sq, true) := by
  unfold execB
  rw [hcb]
  dsimp only
  rw [if_pos rfl]
  rw [hq]
  dsimp only
  rw [if_pos rfl]

/-- an entered context whose body left a test in progress: the closing
marker refuses and the rest of the walk is absorbed. -/
theorem execB_ctx_prog (line : Int) (body rest : B) (s s1 sq : Eng)
    (hcb : contextBegin line line s = (true, s1))
    (hq : execB body s1 = (sq, false)) (hsq : sq.prog = true) :
    execB (.ctx line body rest) s = (sq, false) := by
  unfold execB
  rw [hcb]
  dsimp only
  rw [if_pos rfl]
  rw [hq]
  dsimp only
  simp only [Bool.false_eq_true, if_false]
  rw [contextBegin_prog line line sq hsq]
  dsimp only
  simp only [Bool.false_eq_true, if_false]
  rw [execB_absorb rest sq hsq]

/-- an entered context whose body fell through quietly: the closing marker
matches the frame under the cursor and the pop returns from the group
function. -/
theorem execB_ctx_pop (line : Int) (body rest : B) (s s1 sq : Eng)
    (hcb : contextBegin line line s = (true, s1))
    (hq : execB body s1 = (sq, false)) (hp2 : sq.prog = false)
    (hnr2 : ¬ (sq.idx < sq.top ∧ (sq.stack (sq.idx + 1)).desc = some line))
    (hm2 : (sq.stack sq.idx).desc = some line) :
    execB (.ctx line body rest) s =
      ({ sq with cur := line + 1,
                 pline := if (sq.stack sq.top).requested then -1 else sq.pline,
                 top := sq.top - 1, idx := sq.top - 1 }, true) := by
  unfold execB
  rw [hcb]
  dsimp only
  rw [if_pos rfl]
  rw [hq]
  dsimp only
  simp only [Bool.false_eq_true, if_false]
  rw [contextBegin_match line line sq hp2 hnr2 hm2]
  dsimp only
  rw [if_pos rfl]
  rw [contextEnd_go line sq hp2]
  dsimp only
  rw [if_pos rfl]


/-- one pass of the group function body: either the walk falls through
quietly (nothing opened, cursor monotone, weight non-increasing), or an
event happened (a test began or a context popped) leaving a new nested
chain on the stack and a strictly smaller remaining weight. -/
theorem execB_walk (t : B) : ∀ (lo : Int) (s : Eng) (rem : List Int),
    s.prog = false → wfB lo t = true →
    s.top = s.idx + rem.length →
    stackFrom s.stack s.idx rem →
    pathIn t rem →
    (∀ l ∈ rem, l ≤ s.cur) →
    ((s.stack s.idx).desc = none ∨ ∃ l0, (s.stack s.idx).desc = some l0 ∧ l0 ≤ lo) →
    (∀ i, i ≤ s.idx → (execB t s).1.stack i = s.stack i) ∧
    (((execB t s).2 = false ∧ rem = [] ∧ WalkQuiet t s (execB t s).1) ∨
      WalkEvent t lo rem s (execB t s).1 (execB t s).2) := by
  induction t with
  | nil =>
    intro lo s rem hp hw htop hstk hpath hlines h7
    cases rem with
    | cons l ls =>
      obtain ⟨b, hb, -⟩ := hpath
      exact absurd hb (by simp [findCtx])
    | nil =>
      exact ⟨fun i _ => rfl, Or.inl ⟨rfl, rfl, hp, rfl, rfl, rfl, le_refl _, le_refl _,
        fun hlt _ => absurd hlt (lt_irrefl _)⟩⟩
  | tst line ab rest ih =>
    intro lo s rem hp hw htop hstk hpath hlines h7
    simp only [wfB, Bool.and_eq_true, decide_eq_true_eq] at hw
    obtain ⟨hlol, hwr⟩ := hw
    cases rem with
    | cons l ls =>
      obtain ⟨b, hfb, hpb⟩ := hpath
      have hlb : line < l := wf_findCtx_gt rest line l b hwr hfb
      have hl1 : l ≤ s.cur := hlines l (List.mem_cons_self l ls)
      rw [execB_tst_refuse line ab rest s s (testBegin_skip line s hp (by omega))]
      have h7' : (s.stack s.idx).desc = none ∨
          ∃ l0, (s.stack s.idx).desc = some l0 ∧ l0 ≤ line := by
        rcases h7 with h | ⟨l0, he, hle⟩
        · exact Or.inl h
        · exact Or.inr ⟨l0, he, by omega⟩
      obtain ⟨hpres, hout⟩ := ih line s (l :: ls) hp hwr htop hstk ⟨b, hfb, hpb⟩ hlines h7'
      refine ⟨hpres, ?_⟩
      rcases hout with ⟨-, hnil, -⟩ | hev
      · exact absurd hnil (List.cons_ne_nil l ls)
      · right
        obtain ⟨ch, hchp, hchl, hcht, hchi, hchs, hpr, hpf, hlo2, -, hmu⟩ := hev
        refine ⟨ch, ?_, hchl, hcht, hchi, hchs, hpr, hpf, by omega,
          fun hne => absurd hne (List.cons_ne_nil l ls), ?_⟩
        · cases ch with
          | nil => trivial
          | cons a as => exact hchp
        · cases ch with
          | nil =>
            simp only [muChain, muActive] at hmu ⊢
            rw [if_neg (by omega)]
            omega
          | cons a as =>
            simp only [muChain]
            exact hmu
    | nil =>
      by_cases hcur : line ≤ s.cur
      · rw [execB_tst_refuse line ab rest s s (testBegin_skip line s hp hcur)]
        have h7' : (s.stack s.idx).desc = none ∨
            ∃ l0, (s.stack s.idx).desc = some l0 ∧ l0 ≤ line := by
          rcases h7 with h | ⟨l0, he, hle⟩
          · exact Or.inl h
          · exact Or.inr ⟨l0, he, by omega⟩
        obtain ⟨hpres, hout⟩ := ih line s [] hp hwr htop hstk trivial
          (fun l hl => absurd hl (List.not_mem_nil l)) h7'
        refine ⟨hpres, ?_⟩
        rcases hout with ⟨hret, -, hqp, hqs, hqt, hqi, hqc, hqm, hqstrict⟩ | hev
        · left
          refine ⟨hret, rfl, hqp, hqs, hqt, hqi, hqc, ?_, ?_⟩
          · simp only [muActive]
            rw [if_neg (by omega), if_neg (by omega)]
            omega
          · intro h1 h2
            have := hqstrict h1 h2
            simp only [muActive]
            rw [if_neg (by omega), if_neg (by omega)]
            omega
        · right
          obtain ⟨ch, hchp, hchl, hcht, hchi, hchs, hpr, hpf, hlo2, hcur2, hmu⟩ := hev
          refine ⟨ch, ?_, hchl, hcht, hchi, hchs, hpr, hpf, by omega,
            fun _ => hcur2 rfl, ?_⟩
          · cases ch with
            | nil => trivial
            | cons a as => exact hchp
          · cases ch with
            | nil =>
              simp only [muChain, muActive] at hmu ⊢
              rw [if_neg (by omega), if_neg (by omega)]
              omega
            | cons a as =>
              simp only [muChain, muActive] at hmu ⊢
              rw [if_neg (by omega)]
              omega
      · push_neg at hcur
        by_cases hfl : (s.pline = 0 ∨ s.pline = line) ∧ ¬ s.skip = true
        · rw [execB_tst_begin line ab rest s _ (testBegin_go line s hp hcur hfl) rfl]
          refine ⟨fun i _ => rfl, Or.inr ⟨[], trivial,
            fun l hl => absurd hl (List.not_mem_nil l), htop, ?_, trivial,
            Or.inl rfl, fun h => Bool.noConfusion h, hlol, fun _ => hcur, ?_⟩⟩
          · show s.idx = s.top
            simp only [List.length_nil, Nat.cast_zero, add_zero] at htop
            omega
          · show muChain (B.tst line ab rest) [] line < muChain (B.tst line ab rest) [] s.cur
            simp only [muChain, muActive]
            rw [if_neg (by omega), if_pos hcur]
            have := muActive_mono rest s.cur line (le_of_lt hcur)
            omega
        · rw [execB_tst_refuse line ab rest s _ (testBegin_filtered line s hp hcur hfl)]
          have h7' : (({ s with cur := line, prog := false } : Eng).stack
                ({ s with cur := line, prog := false } : Eng).idx).desc = none ∨
              ∃ l0, (({ s with cur := line, prog := false } : Eng).stack
                ({ s with cur := line, prog := false } : Eng).idx).desc = some l0 ∧ l0 ≤ line := by
            rcases h7 with h | ⟨l0, he, hle⟩
            · exact Or.inl h
            · exact Or.inr ⟨l0, he, by omega⟩
          obtain ⟨hpres, hout⟩ := ih line { s with cur := line, prog := false } [] rfl hwr
            htop trivial trivial (fun l hl => absurd hl (List.not_mem_nil l)) h7'
          refine ⟨hpres, ?_⟩
          rcases hout with ⟨hret, -, hqp, hqs, hqt, hqi, hqc, hqm, -⟩ | hev
          · left
            have hqc2 : line ≤ (execB rest { s with cur := line, prog := false }).1.cur := hqc
            have hqm2 : muActive rest (execB rest { s with cur := line, prog := false }).1.cur ≤
                muActive rest line := hqm
            refine ⟨hret, rfl, hqp, hqs, hqt, hqi, by omega, ?_, ?_⟩
            · simp only [muActive]
              rw [if_neg (by omega), if_pos hcur]
              have := muActive_mono rest s.cur line (le_of_lt hcur)
              omega
            · intro h1 h2
              simp only [muActive]
              rw [if_neg (by omega), if_pos hcur]
              have := muActive_mono rest s.cur line (le_of_lt hcur)
              omega
          · right
            obtain ⟨ch, hchp, hchl, hcht, hchi, hchs, hpr, hpf, hlo2, hcur2, hmu⟩ := hev
            have hcur3 : line < (execB rest { s with cur := line, prog := false }).1.cur :=
              hcur2 rfl
            have hmu2 : muChain rest ch (execB rest { s with cur := line, prog := false }).1.cur <
                muActive rest line := by simpa only [muChain] using hmu
            refine ⟨ch, ?_, hchl, hcht, hchi, hchs, hpr, hpf, by omega,
              fun _ => by omega, ?_⟩
            · cases ch with
              | nil => trivial
              | cons a as => exact hchp
            · have hm3 := muActive_mono rest s.cur line (le_of_lt hcur)
              cases ch with
              | nil =>
                simp only [muChain, muActive] at hmu2 ⊢
                rw [if_neg (by omega), if_pos hcur]
                omega
              | cons a as =>
                simp only [muChain, muActive]
                rw [if_pos hcur]
                omega
  | ctx lineC bodyC rest ihb ihr =>
    intro lo s rem hp hw htop hstk hpath hlines h7
    simp only [wfB, Bool.and_eq_true, decide_eq_true_eq] at hw
    obtain ⟨⟨hlol, hwb⟩, hwr⟩ := hw
    have hmlc : lineC ≤ maxLineB lineC bodyC := maxLineB_le bodyC lineC
    cases rem with
    | cons l ls =>
      by_cases hl : l = lineC
      · -- descend into the chain head
        have hl2 : lineC = l := hl.symm
        subst hl2
        obtain ⟨hs1, hstk2⟩ := hstk
        obtain ⟨b, hfb, hpb⟩ := hpath
        have hb : bodyC = b := by
          rw [show findCtx (B.ctx lineC bodyC rest) lineC = some bodyC by
            simp [findCtx]] at hfb
          exact Option.some.inj hfb
        subst hb
        have hlen : s.top = s.idx + (ls.length : Int) + 1 := by
          simp only [List.length_cons] at htop
          push_cast at htop
          omega
        have hcb := contextBegin_replay lineC lineC s hp ⟨by omega, hs1⟩
        obtain ⟨s1, hs1eq⟩ : ∃ x, contextBegin lineC lineC s = (true, x) := ⟨_, hcb⟩
        have hs1e : s1 = { s with idx := s.idx + 1 } := by
          rw [hcb] at hs1eq
          injection hs1eq with h1 h2
          exact h2.symm
        have hs1prog : s1.prog = false := by rw [hs1e]; exact hp
        have hs1top : s1.top = s.top := by rw [hs1e]
        have hs1idx : s1.idx = s.idx + 1 := by rw [hs1e]
        have hs1cur : s1.cur = s.cur := by rw [hs1e]
        have hs1stk : s1.stack = s.stack := by rw [hs1e]
        obtain ⟨hpresb, houtb⟩ := ihb lineC s1 ls hs1prog hwb
          (by rw [hs1top, hs1idx]; omega)
          (by rw [hs1stk, hs1idx]; exact hstk2) hpb
          (by intro l' hl'; rw [hs1cur]; exact hlines l' (List.mem_cons_of_mem _ hl'))
          (by rw [hs1stk, hs1idx]; exact Or.inr ⟨lineC, hs1, le_refl lineC⟩)
        obtain ⟨sq, retq, hqeq⟩ : ∃ x y, execB bodyC s1 = (x, y) :=
          ⟨_, _, Prod.mk.eta.symm⟩
        rw [hqeq] at hpresb houtb
        dsimp only at hpresb houtb
        rcases houtb with ⟨hretq, hlsnil, hqp, hqs, hqt, hqi, hqc, -, -⟩ | hev
        · -- body quiet: the chain head pops
          subst hlsnil
          subst hretq
          have hqt2 : sq.top = s.top := by rw [hqt, hs1top]
          have hqi2 : sq.idx = s.idx + 1 := by rw [hqi, hs1idx]
          have hqs2 : sq.stack = s.stack := by rw [hqs, hs1stk]
          have hstep := execB_ctx_pop lineC bodyC rest s s1 sq hs1eq hqeq hqp
            (by rintro ⟨h1, -⟩; rw [hqi2, hqt2] at h1; simp only [List.length_cons,
              List.length_nil] at htop; push_cast at htop; omega)
            (by rw [hqs2, hqi2]; exact hs1)
          rw [hstep]
          refine ⟨fun i _ => congrFun hqs2 i, Or.inr ⟨[], trivial,
            fun l' hl' => absurd hl' (List.not_mem_nil l'), ?_, rfl, trivial,
            Or.inr rfl, fun _ => rfl, by dsimp only; omega,
            fun hne => absurd hne (List.cons_ne_nil _ _), ?_⟩⟩
          · show sq.top - 1 = s.idx + ((List.length ([] : List Int) : Nat) : Int)
            simp only [List.length_cons, List.length_nil] at htop
            push_cast at htop
            omega
          · show muChain (B.ctx lineC bodyC rest) [] (lineC + 1) <
              muChain (B.ctx lineC bodyC rest) [lineC] s.cur
            simp only [muChain, muActive, if_true]
            rw [if_neg (by omega)]
            have h2 := muActive_le_muAll rest (lineC + 1)
            omega
        · -- body event: the head stays on the chain
          obtain ⟨ch2, hbp, hbl, hbt, hbi, hbs, hbpr, hbpf, hblo, -, hbmu⟩ := hev
          have hbt2 : sq.top = s.idx + 1 + (ch2.length : Int) := by
            rw [hbt, hs1idx]
          have hbs2 : stackFrom sq.stack (s.idx + 1) ch2 := by
            rw [← hs1idx]; exact hbs
          have hbmu2 : muChain bodyC ch2 sq.cur < muChain bodyC ls s.cur := by
            rw [← hs1cur]; exact hbmu
          have hpres2 : ∀ i, i ≤ s.idx → sq.stack i = s.stack i := by
            intro i hi
            rw [hpresb i (by rw [hs1idx]; omega), hs1stk]
          have hhead : (sq.stack (s.idx + 1)).desc = some lineC := by
            rw [hpresb (s.idx + 1) (by rw [hs1idx]), hs1stk]
            exact hs1
          have hbuild : WalkEvent (B.ctx lineC bodyC rest) lo (lineC :: ls) s sq retq := by
            refine ⟨lineC :: ch2, ⟨bodyC, by simp [findCtx], hbp⟩,
              ?_, ?_, hbi, ⟨hhead, hbs2⟩, hbpr, hbpf, by omega,
              fun hne => absurd hne (List.cons_ne_nil _ _), ?_⟩
            · intro l' hl'
              rcases List.mem_cons.mp hl' with h | h
              · omega
              · exact hbl l' h
            · rw [hbt2]
              simp only [List.length_cons]
              push_cast
              omega
            · simp only [muChain, if_true]
              omega
          cases retq with
          | true =>
            have hstep := execB_ctx_ret lineC bodyC rest s s1 sq hs1eq hqeq
            rw [hstep]
            exact ⟨hpres2, Or.inr hbuild⟩
          | false =>
            have hprog : sq.prog = true := by
              cases hpq : sq.prog
              · exact absurd (hbpf hpq) (by simp)
              · rfl
            have hstep := execB_ctx_prog lineC bodyC rest s s1 sq hs1eq hqeq hprog
            rw [hstep]
            exact ⟨hpres2, Or.inr hbuild⟩
      · -- a sibling context before the chain head
        obtain ⟨b, hfb0, hpb⟩ := hpath
        have hfb : findCtx rest l = some b := by
          simp only [findCtx] at hfb0
          rw [if_neg (fun h => hl h.symm)] at hfb0
          exact hfb0
        have hml : maxLineB lineC bodyC < l := wf_findCtx_gt rest _ l b hwr hfb
        have hl1 : l ≤ s.cur := hlines l (List.mem_cons_self l ls)
        have hcb := contextBegin_late lineC lineC s hp
          (by rintro ⟨-, h2⟩
              obtain ⟨hs1, -⟩ := hstk
              rw [hs1] at h2
              injection h2 with h3
              exact hl h3)
          (by rcases h7 with h | ⟨l0, he, hle⟩
              · rw [h]; simp
              · rw [he]; intro h2; injection h2 with h3; omega)
          (by omega)
        rw [execB_ctx_refuse lineC bodyC rest s s hcb]
        have h7' : (s.stack s.idx).desc = none ∨
            ∃ l0, (s.stack s.idx).desc = some l0 ∧ l0 ≤ maxLineB lineC bodyC := by
          rcases h7 with h | ⟨l0, he, hle⟩
          · exact Or.inl h
          · exact Or.inr ⟨l0, he, by omega⟩
        obtain ⟨hpres, hout⟩ := ihr (maxLineB lineC bodyC) s (l :: ls) hp hwr htop hstk
          ⟨b, hfb, hpb⟩ hlines h7'
        refine ⟨hpres, ?_⟩
        rcases hout with ⟨-, hnil, -⟩ | hev
        · exact absurd hnil (List.cons_ne_nil l ls)
        · right
          obtain ⟨ch, hchp, hchl, hcht, hchi, hchs, hpr, hpf, hlo2, -, hmu⟩ := hev
          refine ⟨ch, ?_, hchl, hcht, hchi, hchs, hpr, hpf, by omega,
            fun hne => absurd hne (List.cons_ne_nil l ls), ?_⟩
          · cases ch with
            | nil => trivial
            | cons a as =>
              obtain ⟨b2, hfb2, hpb2⟩ := hchp
              have := wf_findCtx_gt rest _ a b2 hwr hfb2
              exact ⟨b2, by simp only [findCtx]; rw [if_neg (by omega)]; exact hfb2, hpb2⟩
          · cases ch with
            | nil =>
              simp only [muChain, muActive] at hmu ⊢
              rw [if_neg (by omega), if_neg (by omega)]
              omega
            | cons a as =>
              obtain ⟨b2, hfb2, -⟩ := hchp
              have := wf_findCtx_gt rest _ a b2 hwr hfb2
              simp only [muChain]
              rw [if_neg (by omega), if_neg (by omega)]
              exact hmu
    | nil =>
      have htop0 : s.top = s.idx := by simpa using htop
      have hnm : ¬ (s.stack s.idx).desc = some lineC := by
        rcases h7 with h | ⟨l0, he, hle⟩
        · rw [h]; simp
        · rw [he]; intro h2; injection h2 with h3; omega
      by_cases hcx : lineC < s.cur
      · -- block already passed this run
        have hcb := contextBegin_late lineC lineC s hp
          (by rintro ⟨h1, -⟩; omega) hnm hcx
        rw [execB_ctx_refuse lineC bodyC rest s s hcb]
        have h7' : (s.stack s.idx).desc = none ∨
            ∃ l0, (s.stack s.idx).desc = some l0 ∧ l0 ≤ maxLineB lineC bodyC := by
          rcases h7 with h | ⟨l0, he, hle⟩
          · exact Or.inl h
          · exact Or.inr ⟨l0, he, by omega⟩
        obtain ⟨hpres, hout⟩ := ihr (maxLineB lineC bodyC) s [] hp hwr htop trivial trivial
          (fun l hl => absurd hl (List.not_mem_nil l)) h7'
        refine ⟨hpres, ?_⟩
        rcases hout with ⟨hret, -, hqp, hqs, hqt, hqi, hqc, hqm, hqstrict⟩ | hev
        · left
          refine ⟨hret, rfl, hqp, hqs, hqt, hqi, hqc, ?_, ?_⟩
          · simp only [muActive]
            rw [if_neg (by omega), if_neg (by omega)]
            omega
          · intro h1 h2
            have := hqstrict h1 h2
            simp only [muActive]
            rw [if_neg (by omega), if_neg (by omega)]
            omega
        · right
          obtain ⟨ch, hchp, hchl, hcht, hchi, hchs, hpr, hpf, hlo2, hcur2, hmu⟩ := hev
          refine ⟨ch, ?_, hchl, hcht, hchi, hchs, hpr, hpf, by omega,
            fun _ => hcur2 rfl, ?_⟩
          · cases ch with
            | nil => trivial
            | cons a as =>
              obtain ⟨b2, hfb2, hpb2⟩ := hchp
              have := wf_findCtx_gt rest _ a b2 hwr hfb2
              exact ⟨b2, by simp only [findCtx]; rw [if_neg (by omega)]; exact hfb2, hpb2⟩
          · cases ch with
            | nil =>
              simp only [muChain, muActive] at hmu ⊢
              rw [if_neg (by omega), if_neg (by omega)]
              omega
            | cons a as =>
              obtain ⟨b2, hfb2, -⟩ := hchp
              have := wf_findCtx_gt rest _ a b2 hwr hfb2
              simp only [muChain, muActive] at hmu ⊢
              rw [if_neg (by omega), if_neg (by omega)]
              omega
      · push_neg at hcx
        have hnr : ¬ (s.idx < s.top ∧ (s.stack (s.idx + 1)).desc = some lineC) := by
          rintro ⟨h1, -⟩
          omega
        by_cases hcap : ctxStackMax ≤ s.top + 1
        · -- the fresh push hits the capacity check
          have hcb := contextBegin_capfail lineC lineC s hp hnr hnm hcx hcap
          obtain ⟨s4, hs4eq⟩ : ∃ x, contextBegin lineC lineC s = (false, x) := ⟨_, hcb⟩
          have hs4e : s4 = { s with
              pline := (if lineC = s.pline then 0 else s.pline),
              cur := lineC,
              capWarns := s.capWarns + 1 } := by
            rw [hcb] at hs4eq
            injection hs4eq with h1 h2
            exact h2.symm
          have hs4prog : s4.prog = false := by rw [hs4e]; exact hp
          have hs4top : s4.top = s.top := by rw [hs4e]
          have hs4idx : s4.idx = s.idx := by rw [hs4e]
          have hs4cur : s4.cur = lineC := by rw [hs4e]
          have hs4stk : s4.stack = s.stack := by rw [hs4e]
          rw [execB_ctx_refuse lineC bodyC rest s s4 hs4eq]
          have h7' : (s4.stack s4.idx).desc = none ∨
              ∃ l0, (s4.stack s4.idx).desc = some l0 ∧ l0 ≤ maxLineB lineC bodyC := by
            rw [hs4stk, hs4idx]
            rcases h7 with h | ⟨l0, he, hle⟩
            · exact Or.inl h
            · exact Or.inr ⟨l0, he, by omega⟩
          obtain ⟨hpres, hout⟩ := ihr (maxLineB lineC bodyC) s4 [] hs4prog hwr
            (by rw [hs4top, hs4idx]; exact htop) trivial trivial
            (fun l hl => absurd hl (List.not_mem_nil l)) h7'
          have hpres2 : ∀ i, i ≤ s.idx → (execB rest s4).1.stack i = s.stack i := by
            intro i hi
            rw [hpres i (by rw [hs4idx]; omega), hs4stk]
          refine ⟨hpres2, ?_⟩
          have hm3 := muActive_mono rest s.cur lineC hcx
          rcases hout with ⟨hret, -, hqp, hqs, hqt, hqi, hqc, hqm, -⟩ | hev
          · left
            have hqc2 : lineC ≤ (execB rest s4).1.cur := by rw [← hs4cur]; exact hqc
            have hqm2 : muActive rest (execB rest s4).1.cur ≤ muActive rest lineC := by
              rw [← hs4cur]; exact hqm
            refine ⟨hret, rfl, hqp, by rw [hqs, hs4stk], by rw [hqt, hs4top],
              by rw [hqi, hs4idx], by omega, ?_, ?_⟩
            · simp only [muActive]
              rw [if_pos hcx]
              split
              · omega
              · omega
            · intro h1 h2
              exact absurd h2 (by omega)
          · right
            obtain ⟨ch, hchp, hchl, hcht, hchi, hchs, hpr, hpf, hlo2, hcur2, hmu⟩ := hev
            have hcur3 : lineC < (execB rest s4).1.cur := by
              rw [← hs4cur]; exact hcur2 rfl

            refine ⟨ch, ?_, hchl, by rw [hcht, hs4idx], hchi,
              by rw [← hs4idx]; exact hchs, hpr, hpf, by omega,
              fun _ => by omega, ?_⟩
            · cases ch with
              | nil => trivial
              | cons a as =>
                obtain ⟨b2, hfb2, hpb2⟩ := hchp
                have := wf_findCtx_gt rest _ a b2 hwr hfb2
                exact ⟨b2, by simp only [findCtx]; rw [if_neg (by omega)]; exact hfb2, hpb2⟩
            · cases ch with
              | nil =>
                simp only [muChain, muActive] at hmu ⊢
                rw [hs4cur] at hmu
                rw [if_neg (by omega), if_pos hcx]
                omega
              | cons a as =>
                obtain ⟨b2, hfb2, -⟩ := hchp
                have := wf_findCtx_gt rest _ a b2 hwr hfb2
                simp only [muChain, muActive] at hmu ⊢
                rw [hs4cur] at hmu
                rw [if_neg (by omega), if_pos hcx]
                omega
        · -- fresh push
          push_neg at hcap
          have hcb := contextBegin_push lineC lineC s hp hnr hnm hcx hcap
          obtain ⟨s5, hs5eq⟩ : ∃ x, contextBegin lineC lineC s = (true, x) := ⟨_, hcb⟩
          have hs5e : s5 = { s with
              pline := (if lineC = s.pline then 0 else s.pline),
              cur := lineC,
              top := s.top + 1,
              idx := s.top + 1,
              stack := fun i => if i = s.top + 1 then ⟨some lineC, lineC == s.pline⟩
                else s.stack i } := by
            rw [hcb] at hs5eq
            injection hs5eq with h1 h2
            exact h2.symm
          have hs5prog : s5.prog = false := by rw [hs5e]; exact hp
          have hs5top : s5.top = s.top + 1 := by rw [hs5e]
          have hs5idx : s5.idx = s.top + 1 := by rw [hs5e]
          have hs5cur : s5.cur = lineC := by rw [hs5e]
          have hs5stk : ∀ i, i ≠ s.top + 1 → s5.stack i = s.stack i := by
            intro i hi
            rw [hs5e]
            dsimp only
            rw [if_neg hi]
          have hs5entry : (s5.stack (s.top + 1)).desc = some lineC := by
            rw [hs5e]
            dsimp only
            rw [if_pos rfl]
          obtain ⟨hpresb, houtb⟩ := ihb lineC s5 [] hs5prog hwb
            (by rw [hs5top, hs5idx]; simp)
            trivial trivial (fun l hl => absurd hl (List.not_mem_nil l))
            (by rw [hs5idx]; exact Or.inr ⟨lineC, hs5entry, le_refl lineC⟩)
          obtain ⟨sq, retq, hqeq⟩ : ∃ x y, execB bodyC s5 = (x, y) :=
            ⟨_, _, Prod.mk.eta.symm⟩
          rw [hqeq] at hpresb houtb
          dsimp only at hpresb houtb
          have hpresb2 : ∀ i, i ≤ s.top + 1 → sq.stack i = s5.stack i := by
            intro i hi
            exact hpresb i (by rw [hs5idx]; omega)
          have hpres2 : ∀ i, i ≤ s.idx → sq.stack i = s.stack i := by
            intro i hi
            rw [hpresb2 i (by omega), hs5stk i (by omega)]
          rcases houtb with ⟨hretq, -, hqp, hqs, hqt, hqi, hqc, -, -⟩ | hev
          · -- body quiet: enter and pop in one pass
            subst hretq
            have hqt2 : sq.top = s.top + 1 := by rw [hqt, hs5top]
            have hqi2 : sq.idx = s.top + 1 := by rw [hqi, hs5idx]
            have hstep := execB_ctx_pop lineC bodyC rest s s5 sq hs5eq hqeq hqp
              (by rintro ⟨h1, -⟩; rw [hqi2, hqt2] at h1; omega)
              (by rw [hqs, hqi2]; exact hs5entry)
            rw [hstep]
            refine ⟨fun i hi => hpres2 i hi, Or.inr ⟨[], trivial,
              fun l' hl' => absurd hl' (List.not_mem_nil l'), ?_, rfl, trivial,
              Or.inr rfl, fun _ => rfl, by dsimp only; omega,
              fun _ => by dsimp only; omega, ?_⟩⟩
            · show sq.top - 1 = s.idx + ((List.length ([] : List Int) : Nat) : Int)
              simp only [List.length_nil, Nat.cast_zero, add_zero]
              omega
            · show muChain (B.ctx lineC bodyC rest) [] (lineC + 1) <
                muChain (B.ctx lineC bodyC rest) [] s.cur
              simp only [muChain, muActive]
              rw [if_neg (by omega), if_pos hcx]
              have h2 := muActive_mono rest s.cur (lineC + 1) (by omega)
              omega
          · -- body event below the fresh push
            obtain ⟨ch2, hbp, hbl, hbt, hbi, hbs, hbpr, hbpf, hblo, hbcur, hbmu⟩ := hev
            have hbt2 : sq.top = s.top + 1 + (ch2.length : Int) := by
              rw [hbt, hs5idx]
            have hbs2 : stackFrom sq.stack (s.top + 1) ch2 := by
              rw [← hs5idx]; exact hbs
            have hbmu2 : muChain bodyC ch2 sq.cur < muActive bodyC lineC := by
              have := hbmu
              rw [hs5cur] at this
              simpa [muChain] using this
            have hhead : (sq.stack (s.idx + 1)).desc = some lineC := by
              have h1 := hpresb2 (s.idx + 1) (by omega)
              rw [h1, ← htop0]
              exact hs5entry
            have hbuild : WalkEvent (B.ctx lineC bodyC rest) lo [] s sq retq := by
              refine ⟨lineC :: ch2, ⟨bodyC, by simp [findCtx], hbp⟩,
                ?_, ?_, hbi, ⟨hhead, by rw [htop0] at hbs2; exact hbs2⟩, hbpr, hbpf,
                by omega, fun _ => by omega, ?_⟩
              · intro l' hl'
                rcases List.mem_cons.mp hl' with h | h
                · omega
                · exact hbl l' h
              · rw [hbt2, htop0]
                simp only [List.length_cons]
                push_cast
                omega
              · have hall : muActive rest s.cur = muAll rest :=
                  muActive_eq_muAll rest (maxLineB lineC bodyC) s.cur hwr (by omega)
                have h2 := muActive_le_muAll bodyC lineC
                simp only [muChain, muActive, if_true]
                rw [if_pos hcx]
                omega
            cases retq with
            | true =>
              have hstep := execB_ctx_ret lineC bodyC rest s s5 sq hs5eq hqeq
              rw [hstep]
              exact ⟨hpres2, Or.inr hbuild⟩
            | false =>
              have hprog : sq.prog = true := by
                cases hpq : sq.prog
                · exact absurd (hbpf hpq) (by simp)
                · rfl
              have hstep := execB_ctx_prog lineC bodyC rest s s5 sq hs5eq hqeq hprog
              rw [hstep]
              exact ⟨hpres2, Or.inr hbuild⟩

/-- a fuel that suffices keeps sufficing. -/
theorem runGroupAux_mono (body : B) : ∀ (n : Nat) (s sf : Eng) (n2 : Nat),
    runGroupAux body s n = some sf → n ≤ n2 → runGroupAux body s n2 = some sf := by
  intro n
  induction n with
  | zero =>
    intro s sf n2 h _
    exact absurd h (by simp [runGroupAux])
  | succ m ih =>
    intro s sf n2 h hle
    obtain ⟨k, rfl⟩ : ∃ k, n2 = k + 1 := ⟨n2 - 1, by omega⟩
    simp only [runGroupAux] at h ⊢
    split at h
    · rename_i hc
      rw [if_pos hc]
      exact h
    · rename_i hc
      rw [if_neg hc]
      exact ih _ sf k h (by omega)

/-- the re-execution loop reaches its fixed point within muChain-many
passes: each non-breaking pass strictly shrinks the remaining weight. -/
theorem runGroup_fuel (body : B) (hw : wfB 0 body = true) :
    ∀ (N : Nat) (s : Eng) (ch : List Int),
    s.prog = false → (s.stack 0).desc = none →
    s.top = (ch.length : Int) →
    stackFrom s.stack 0 ch →
    pathIn body ch →
    (∀ l ∈ ch, l ≤ s.cur) →
    muChain body ch s.cur ≤ N →
    ∃ sf, runGroupAux body s (N + 1) = some sf := by
  intro N
  induction N using Nat.strong_induction_on with
  | _ N ih =>
    intro s ch hp hroot htop hstk hpath hlines hmu
    obtain ⟨hpres, hout⟩ := execB_walk body 0 (beforePass s) ch hp hw
      (by show s.top = 0 + (ch.length : Int); omega) hstk hpath hlines (Or.inl hroot)
    have he : runGroupAux body s (N + 1) =
        (if ¬ (execB body (beforePass s)).1.prog = true ∧
            (beforePass s).cur = (execB body (beforePass s)).1.cur
          then some (execB body (beforePass s)).1
          else runGroupAux body (endPass (execB body (beforePass s)).1) N) := rfl
    by_cases hbreak : ¬ (execB body (beforePass s)).1.prog = true ∧
        (beforePass s).cur = (execB body (beforePass s)).1.cur
    · exact ⟨_, by rw [he, if_pos hbreak]⟩
    · rw [he, if_neg hbreak]
      obtain ⟨hep, hes, het, hei, hec⟩ := endPass_fields (execB body (beforePass s)).1
      rcases hout with ⟨hret, hchnil, hqp, hqs, hqt, hqi, hqc, hqm, hqstrict⟩ | hev
      · -- quiet pass that did not break: the cursor moved, weight shrank
        subst hchnil
        have htop0 : s.top = 0 := by simpa using htop
        have hne : ¬ ((beforePass s).cur = (execB body (beforePass s)).1.cur) :=
          fun hcur => hbreak ⟨by rw [hqp]; simp, hcur⟩
        have hc2 : s.cur < (execB body (beforePass s)).1.cur := lt_of_le_of_ne hqc hne
        have hstrict : muActive body (execB body (beforePass s)).1.cur <
            muActive body s.cur :=
          hqstrict hc2 (by show s.top + 1 < ctxStackMax; rw [htop0]; decide)
        have hm : muChain body [] (endPass (execB body (beforePass s)).1).cur =
            muActive body (execB body (beforePass s)).1.cur := by
          simp only [muChain]
          rw [hec]
        have hmu0 : muActive body s.cur ≤ N := by
          simp only [muChain] at hmu
          exact hmu
        obtain ⟨sf, hsf⟩ := ih (muChain body [] (endPass (execB body (beforePass s)).1).cur)
          (by omega) (endPass (execB body (beforePass s)).1) []
          hep (by rw [hes, hqs]; exact hroot)
          (by rw [het, hqt]; simpa using htop)
          trivial trivial (fun l hl => absurd hl (List.not_mem_nil l)) (le_refl _)
        exact ⟨sf, runGroupAux_mono body _ _ sf N hsf (by omega)⟩
      · -- event pass: the new chain is on the stack, weight shrank
        obtain ⟨ch2, hchp, hchl, hcht, hchi, hchs, hpr, hpf, hlo2, hcur2, hmu2⟩ := hev
        have hm : muChain body ch2 (endPass (execB body (beforePass s)).1).cur =
            muChain body ch2 (execB body (beforePass s)).1.cur := by
          rw [hec]
        have hmu3 : muChain body ch2 (execB body (beforePass s)).1.cur <
            muChain body ch s.cur := hmu2
        have hcht2 : (execB body (beforePass s)).1.top = 0 + (ch2.length : Int) := hcht
        obtain ⟨sf, hsf⟩ := ih (muChain body ch2 (endPass (execB body (beforePass s)).1).cur)
          (by omega) (endPass (execB body (beforePass s)).1) ch2
          hep
          (by rw [hes, hpres 0 (le_refl _)]; exact hroot)
          (by rw [het]; omega)
          (by rw [hes]; exact hchs)
          hchp
          (by intro l hl; rw [hec]; exact hchl l hl)
          (le_refl _)
        exact ⟨sf, runGroupAux_mono body _ _ sf N hsf (by omega)⟩

/-! ### The termination claim -/

/-- C1: for every well-formed test group body (context and test blocks
whose source lines strictly increase in source order, as the __LINE__
macros produce) started outside a test with an intact root frame,
process_function terminates: some finite fuel makes the re-execution loop
reach a pass that ends with the in-progress flag false and the line cursor
equal to its value at the start of that pass, exiting the loop. -/
theorem process_function_terminates (body : B) (s : Eng)
    (hw : wfB 0 body = true) (hp : s.prog = false) (htop : s.top = 0)
    (hroot : (s.stack 0).desc = none) :
    ∃ n sf, processFunction body s n = some sf := by
  obtain ⟨sf, hsf⟩ := runGroup_fuel body hw (muChain body [] 0) { s with cur := 0 } []
    hp hroot (by simp only [List.length_nil, Nat.cast_zero]; exact htop)
    trivial trivial (fun l hl => absurd hl (List.not_mem_nil l)) (le_refl _)
  refine ⟨muChain body [] 0 + 1, clearStack sf, ?_⟩
  unfold processFunction
  rw [hsf]

/-- C1 witness: the loop terminates on the concrete well-formed group
c1body run from the freshly initialised engine. -/
theorem process_function_terminates_witness :
    wfB 0 c1body = true ∧ (engInit 0).prog = false ∧ (engInit 0).top = 0 ∧
    ((engInit 0).stack 0).desc = none ∧
    ∃ n sf, processFunction c1body (engInit 0) n = some sf := by
  refine ⟨by decide, rfl, rfl, rfl, ?_⟩
  exact process_function_terminates c1body (engInit 0) (by decide) rfl rfl rfl

end Cspec
